import Mathlib

/-!
Shallow embedding of `src/tng.py` (class `UidMap`): a 64-bit UID codec and a
four-level lazily allocated sparse table mapping UIDs to storage indices.

Modelling conventions:
* numpy `uint64` arithmetic is modelled on `Nat` with an explicit `% 2 ^ 64`
  where the source converts through `np.uint64`;
* Python exceptions are modelled by `Except Err`: `IndexError` on an
  out-of-range list/array subscript becomes `Err.indexOutOfBounds`,
  `TypeError` from subscripting `None` becomes `Err.noneSubscript`, and the
  float-to-integer conversion failures in the constructor (log2 of a
  non-positive capacity) become `Err.conversionOverflow`;
* the constructor computes `year_bits = time_bits - day_bits` on `np.uint32`;
  when `day_bits > time_bits` this underflows and the subsequent
  `1 << year_bits` is an undefined numpy shift, modelled as
  `Err.undefinedShift`;
* the Python lists/ndarray of the table become nested `List`s, with `None`
  entries as `Option.none` and the level-4 `(index, uid)` ndarray rows as a
  `Slot` structure.
-/

namespace Tng

/-- Failure conditions of the source, named after the Python exception that
the corresponding line raises. -/
inductive Err where
  | indexOutOfBounds : Err
  | noneSubscript : Err
  | conversionOverflow : Err
  | undefinedShift : Err
deriving Repr, DecidableEq

/-- The all-ones `uint64`, used by the source as the "empty slot" marker. -/
def sentinel : Nat := 0xFFFFFFFFFFFFFFFF

/-- One row of the level-4 ndarray: column 0 is the storage index, column 1
the UID stored there. -/
structure Slot where
  index : Nat
  uid : Nat
deriving Repr, DecidableEq

/-- Serial-number array: level 4 of the table (`np.zeros((1 << pop_bits, 2))`
rows). -/
abbrev SsnArray := List Slot

/-- Day table: level 3, one optional serial-number array per day. -/
abbrev DayTable := List (Option SsnArray)

/-- Child table: level 2, one optional day table per child slot. -/
abbrev ChildTable := List (Option DayTable)

/-- Year table: level 1, one optional child table per year. -/
abbrev YearTable := List (Option ChildTable)

/-- The bit-width configuration computed in `UidMap.__init__`. -/
structure Bits where
  pop_bits : Nat
  time_bits : Nat
  child_bits : Nat
  day_bits : Nat
deriving Repr, DecidableEq

/-- Derived field `year_bits = time_bits - day_bits` (meaningful when
`day_bits ≤ time_bits`; the constructor rejects the underflowing case). -/
def Bits.year_bits (b : Bits) : Nat := b.time_bits - b.day_bits

/-- Derived field `ssn_offset = child_bits + time_bits`. -/
def Bits.ssn_offset (b : Bits) : Nat := b.child_bits + b.time_bits

/-- Derived field `child_offset = time_bits`. -/
def Bits.child_offset (b : Bits) : Nat := b.time_bits

/-- Derived field `child_mask = (1 << child_bits) - 1`. -/
def Bits.child_mask (b : Bits) : Nat := 2 ^ b.child_bits - 1

/-- Derived field `time_mask = (1 << time_bits) - 1`. -/
def Bits.time_mask (b : Bits) : Nat := 2 ^ b.time_bits - 1

/-- Derived field `day_mask = (1 << day_bits) - 1`. -/
def Bits.day_mask (b : Bits) : Nat := 2 ^ b.day_bits - 1

/-- Fuel-bounded floor of log2 (fuel 64 suffices for 64-bit values). -/
def log2floorAux : Nat → Nat → Nat
  | 0, _ => 0
  | fuel + 1, n => if n < 2 then 0 else log2floorAux fuel (n / 2) + 1

/-- Ceiling of log2 on positive naturals; models
`np.uint32(np.ceil(np.log2 n))` exactly for `0 < n < 2 ^ 64`. -/
def clog2 (n : Nat) : Nat :=
  if n ≤ 1 then 0 else log2floorAux 64 (n - 1) + 1

/-- The `UidMap` object: the bit configuration plus the level-1 year table
(`self.mapping`). -/
structure UidMap where
  bits : Bits
  mapping : YearTable
deriving Repr, DecidableEq

/-- Constructor `UidMap.__init__`.  Computes the bit widths with
ceil-of-log2 and eagerly allocates only the year table, of length
`2 ^ year_bits`, with every entry `None`.  A capacity of zero makes
`np.log2` return `-inf` and the `np.uint32` conversion raise; `day_bits >
time_bits` underflows the `np.uint32` subtraction and makes the year-table
size shift undefined.  No other validation is performed by the source. -/
def UidMap.init (initial_population_size number_of_timesteps max_children year_size : Nat) :
    Except Err UidMap :=
  if initial_population_size = 0 ∨ number_of_timesteps = 0 ∨ max_children = 0 ∨ year_size = 0 then
    .error .conversionOverflow
  else
    let b : Bits := ⟨clog2 initial_population_size, clog2 number_of_timesteps,
                     clog2 max_children, clog2 year_size⟩
    if b.time_bits < b.day_bits then
      .error .undefinedShift
    else
      .ok ⟨b, List.replicate (2 ^ b.year_bits) none⟩

/-- Codec `make_uid`: `np.uint64((ssn << ssn_offset) + (child << child_offset) + time)`.
Note the source adds unmasked fields; only the final value is reduced to 64
bits. -/
def make_uid (b : Bits) (ssn time child : Nat) : Nat :=
  ((ssn <<< b.ssn_offset) + (child <<< b.child_offset) + time) % 2 ^ 64

/-- Result of `parse_uid`, in the source's return order
`(ssn, child, day, year)`. -/
structure Parsed where
  ssn : Nat
  child : Nat
  day : Nat
  year : Nat
deriving Repr, DecidableEq

/-- Codec `parse_uid`: pure bit extraction.  `ssn` is the unmasked high
bits, `child` and `time` are masked, and `time` splits into `year`/`day`. -/
def parse_uid (b : Bits) (uid0 : Nat) : Parsed :=
  let uid := uid0 % 2 ^ 64
  let ssn := uid >>> b.ssn_offset
  let child := (uid >>> b.child_offset) &&& b.child_mask
  let time := uid &&& b.time_mask
  let year := time >>> b.day_bits
  let day := time &&& b.day_mask
  ⟨ssn, child, day, year⟩

/-- A freshly allocated child table: `[None for _ in range(1 << child_bits)]`. -/
def freshChild (b : Bits) : ChildTable := List.replicate (2 ^ b.child_bits) none

/-- A freshly allocated day table: `[None for _ in range(1 << day_bits)]`. -/
def freshDay (b : Bits) : DayTable := List.replicate (2 ^ b.day_bits) none

/-- A freshly allocated serial-number array: `np.zeros((1 << pop_bits, 2))`
with every storage index preset to the sentinel. -/
def freshArr (b : Bits) : SsnArray := List.replicate (2 ^ b.pop_bits) ⟨sentinel, 0⟩

/-- Insert `add_individual(uid, index)`: decodes the UID, lazily allocates
the three inner levels, then overwrites the serial-number slot with
`(index, uid)`.  List subscripts out of range raise `IndexError`
(`indexOutOfBounds`); under the constructor's configurations only the
serial number can be out of range. -/
def add_individual (m : UidMap) (uid0 index : Nat) : Except Err UidMap :=
  let uid := uid0 % 2 ^ 64
  let p := parse_uid m.bits uid
  match m.mapping[p.year]? with
  | none => .error .indexOutOfBounds
  | some yEntry =>
    let child_list := yEntry.getD (freshChild m.bits)
    match child_list[p.child]? with
    | none => .error .indexOutOfBounds
    | some cEntry =>
      let day_list := cEntry.getD (freshDay m.bits)
      match day_list[p.day]? with
      | none => .error .indexOutOfBounds
      | some dEntry =>
        let ssn_array := dEntry.getD (freshArr m.bits)
        if p.ssn < ssn_array.length then
          .ok ⟨m.bits, m.mapping.set p.year (some (child_list.set p.child
                (some (day_list.set p.day (some (ssn_array.set p.ssn
                  ⟨index % 2 ^ 64, uid⟩))))))⟩
        else .error .indexOutOfBounds

/-- Lookup `get_index(uid)`: `self.mapping[year][child][day][ssn, 0]` with
no allocation.  Subscripting a `None` intermediate level raises `TypeError`
(`noneSubscript`); an out-of-range subscript raises `IndexError`.  When the
full path exists the raw stored storage index is returned, sentinel
included. -/
def get_index (m : UidMap) (uid0 : Nat) : Except Err Nat :=
  let uid := uid0 % 2 ^ 64
  let p := parse_uid m.bits uid
  match m.mapping[p.year]? with
  | none => .error .indexOutOfBounds
  | some none => .error .noneSubscript
  | some (some child_list) =>
    match child_list[p.child]? with
    | none => .error .indexOutOfBounds
    | some none => .error .noneSubscript
    | some (some day_list) =>
      match day_list[p.day]? with
      | none => .error .indexOutOfBounds
      | some none => .error .noneSubscript
      | some (some ssn_array) =>
        match ssn_array[p.ssn]? with
        | none => .error .indexOutOfBounds
        | some slot => .ok slot.index

/-- Innermost loop of `uids()`: emit `uid` for every row whose storage
index differs from the sentinel, in ascending row order. -/
def arrUids (arr : SsnArray) : List Nat :=
  (arr.filter (fun s => s.index != sentinel)).map (fun s => s.uid)

/-- Level-3 loop of `uids()`: skip unallocated days. -/
def dayUids (day_list : DayTable) : List Nat :=
  day_list.flatMap (fun e => match e with
    | none => []
    | some arr => arrUids arr)

/-- Level-2 loop of `uids()`: skip unallocated child slots. -/
def childUids (child_list : ChildTable) : List Nat :=
  child_list.flatMap (fun e => match e with
    | none => []
    | some day_list => dayUids day_list)

/-- Enumeration `uids()`: the generator flattened into a list, visiting
year, child slot, day and serial number in ascending order and skipping
every unallocated level.  The function only reads the table. -/
def uids (m : UidMap) : List Nat :=
  m.mapping.flatMap (fun e => match e with
    | none => []
    | some child_list => childUids child_list)

/-- Run a sequence of `add_individual` calls, stopping at the first raised
exception. -/
def runInserts (m : UidMap) : List (Nat × Nat) → Except Err UidMap
  | [] => .ok m
  | p :: rest =>
    match add_individual m p.1 p.2 with
    | .error e => .error e
    | .ok m1 => runInserts m1 rest

/-- Read a day table at day `d`, then its serial array at `s`; `none` when
unallocated or out of range. -/
def level3 (day_list : DayTable) (d s : Nat) : Option Slot :=
  (day_list[d]?.join).bind (fun arr => arr[s]?)

/-- Read a child table at child `c`, then descend. -/
def level2 (child_list : ChildTable) (c d s : Nat) : Option Slot :=
  (child_list[c]?.join).bind (fun day_list => level3 day_list d s)

/-- Read the level-4 slot stored at coordinates `(y, c, d, s)`, `none` when
any level on the way is unallocated or out of range. -/
def slotAt (m : UidMap) (y c d s : Nat) : Option Slot :=
  (m.mapping[y]?.join).bind (fun child_list => level2 child_list c d s)

/-- Well-formedness of the table: the year table has its constructed length
and every allocated level has the length its allocation site gives it. -/
def WF (m : UidMap) : Prop :=
  m.mapping.length = 2 ^ m.bits.year_bits ∧
  ∀ (y : Nat) (child_list : ChildTable), m.mapping[y]? = some (some child_list) →
    child_list.length = 2 ^ m.bits.child_bits ∧
    ∀ (c : Nat) (day_list : DayTable), child_list[c]? = some (some day_list) →
      day_list.length = 2 ^ m.bits.day_bits ∧
      ∀ (d : Nat) (arr : SsnArray), day_list[d]? = some (some arr) →
        arr.length = 2 ^ m.bits.pop_bits

/-- The bit configuration produced by the demo driver in `main()`:
`UidMap(10_000, 7_300)` gives `pop_bits = 14`, `time_bits = 13`,
`child_bits = 3`, `day_bits = 8`. -/
def demoBits : Bits := ⟨14, 13, 3, 8⟩

/-- A miniature valid configuration, `UidMap(4, 8, 2, 2)`, used to evaluate
the model on concrete inputs: `pop_bits = 2`, `time_bits = 3`,
`child_bits = 1`, `day_bits = 1`, hence `year_bits = 2` and
`ssn_offset = 4`. -/
def smallBits : Bits := ⟨2, 3, 1, 1⟩

/-- Effect of one `add_individual(p.1, p.2)` call on the slot stored at
coordinates `(y, c, d, s)`: the exact target slot is overwritten; any other
slot of the same serial-number array keeps its value, or comes into
existence holding the sentinel if the array was freshly allocated; every
other slot is untouched. -/
def stepSlot (b : Bits) (y c d s : Nat) (prev : Option Slot) (p : Nat × Nat) : Option Slot :=
  let q := parse_uid b (p.1 % 2 ^ 64)
  if s = q.ssn ∧ c = q.child ∧ d = q.day ∧ y = q.year then
    some ⟨p.2 % 2 ^ 64, p.1 % 2 ^ 64⟩
  else if c = q.child ∧ d = q.day ∧ y = q.year ∧ s < 2 ^ b.pop_bits then
    some (prev.getD ⟨sentinel, 0⟩)
  else prev

/-- Emission of one optional slot: the stored UID when the slot exists and
its storage index is not the sentinel. -/
def emitSlot (o : Option Slot) : Option Nat :=
  o.bind (fun slot => if slot.index = sentinel then none else some slot.uid)

/-- All table coordinates `(year, child, day, ssn)` of a configuration, in
lexicographic order with year outermost. -/
def coordsList (b : Bits) : List (Nat × Nat × Nat × Nat) :=
  (List.range (2 ^ b.year_bits)) ×ˢ ((List.range (2 ^ b.child_bits)) ×ˢ
    ((List.range (2 ^ b.day_bits)) ×ˢ (List.range (2 ^ b.pop_bits))))

/-- Emission at a coordinate quadruple. -/
def emitAt (m : UidMap) (q : Nat × Nat × Nat × Nat) : Option Nat :=
  emitSlot (slotAt m q.1 q.2.1 q.2.2.1 q.2.2.2)

/-- Modelled from the spec (§4.5 Enumeration): visit every coordinate in
order year ascending, then child slot, then day, then serial number, and
yield the UID of every allocated slot whose storage index is not the
sentinel, skipping unallocated levels.  Compared against the source's
`uids()` traversal. -/
def specUids (m : UidMap) : List Nat :=
  (coordsList m.bits).filterMap (emitAt m)

/-- The last insert among `ops` whose UID decodes to the coordinates
`(s, c, d, y)`. -/
def lastWrite (b : Bits) (ops : List (Nat × Nat)) (y c d s : Nat) : Option (Nat × Nat) :=
  (ops.filter (fun p => parse_uid b (p.1 % 2 ^ 64) = ⟨s, c, d, y⟩)).getLast?

/-- The storage index (as stored, reduced mod `2^64`) of the last insert of
UID `u` in `ops`, if any. -/
def lastIndexOf (ops : List (Nat × Nat)) (u : Nat) : Option Nat :=
  ((ops.filter (fun p => p.1 % 2 ^ 64 = u)).getLast?).map (fun p => p.2 % 2 ^ 64)

/-- A table is coherent when every occupied slot stores the (64-bit) UID
that decodes to that slot's own coordinates.  Every table reachable through
`add_individual` from a fresh map is coherent. -/
def GoodMap (m : UidMap) : Prop :=
  ∀ y c d s slot, slotAt m y c d s = some slot → slot.index ≠ sentinel →
    slot.uid < 2 ^ 64 ∧ parse_uid m.bits slot.uid = ⟨s, c, d, y⟩

/-- The freshly constructed miniature map `UidMap(4, 8, 2, 2)`. -/
def smallMap0 : UidMap := ⟨smallBits, List.replicate 4 none⟩

/-- The miniature map after `add_individual(0, 5)` (coordinates
`(ssn, child, day, year) = (0, 0, 0, 0)`). -/
def smallMap1 : UidMap :=
  ⟨smallBits, (List.replicate 4 none).set 0
    (some ((List.replicate 2 none).set 0
      (some ((List.replicate 2 none).set 0
        (some ((List.replicate 4 (⟨sentinel, 0⟩ : Slot)).set 0 ⟨5, 0⟩))))))⟩

/-- The miniature map after the inserts `(0, 5)`, `(0, 7)` and
`(16, sentinel)`: uid 0 was overwritten with index 7, uid 16 occupies its
slot with the sentinel index. -/
def w3Map : UidMap :=
  ⟨smallBits,
    [some [some [some [⟨7, 0⟩, ⟨sentinel, 16⟩, ⟨sentinel, 0⟩, ⟨sentinel, 0⟩], none], none],
     none, none, none]⟩

/-- The miniature map after the single insert `(0, sentinel)`. -/
def wSentMap : UidMap :=
  ⟨smallBits,
    [some [some [some [⟨sentinel, 0⟩, ⟨sentinel, 0⟩, ⟨sentinel, 0⟩, ⟨sentinel, 0⟩],
      none], none],
     none, none, none]⟩

instance exceptDecidableEq {ε α : Type} [DecidableEq ε] [DecidableEq α] :
    DecidableEq (Except ε α) := fun x y =>
  match x, y with
  | .error e, .error f =>
    if h : e = f then isTrue (by rw [h]) else isFalse (by intro hc; cases hc; exact h rfl)
  | .error _, .ok _ => isFalse (by intro hc; cases hc)
  | .ok _, .error _ => isFalse (by intro hc; cases hc)
  | .ok a, .ok b =>
    if h : a = b then isTrue (by rw [h]) else isFalse (by intro hc; cases hc; exact h rfl)

/-! ### Basic codec arithmetic -/

theorem parse_uid_mod (b : Bits) (u : Nat) : parse_uid b (u % 2 ^ 64) = parse_uid b u := by
  simp [parse_uid, Nat.mod_mod_of_dvd _ dvd_rfl]

theorem parse_uid_eq (b : Bits) (u : Nat) :
    parse_uid b u =
      ⟨u % 2 ^ 64 / 2 ^ b.ssn_offset,
       u % 2 ^ 64 / 2 ^ b.child_offset % 2 ^ b.child_bits,
       u % 2 ^ 64 % 2 ^ b.time_bits % 2 ^ b.day_bits,
       u % 2 ^ 64 % 2 ^ b.time_bits / 2 ^ b.day_bits⟩ := by
  simp [parse_uid, Bits.child_mask, Bits.time_mask, Bits.day_mask,
    Nat.shiftRight_eq_div_pow, Nat.and_pow_two_sub_one_eq_mod]

theorem make_uid_eq (b : Bits) (s t c : Nat) :
    make_uid b s t c = (s * 2 ^ b.ssn_offset + c * 2 ^ b.child_offset + t) % 2 ^ 64 := by
  simp [make_uid, Nat.shiftLeft_eq]

theorem parse_make_uid (b : Bits) (s t c : Nat)
    (hsum : b.pop_bits + b.child_bits + b.time_bits ≤ 64)
    (hs : s < 2 ^ b.pop_bits) (ht : t < 2 ^ b.time_bits) (hc : c < 2 ^ b.child_bits) :
    parse_uid b (make_uid b s t c) =
      ⟨s, c, t % 2 ^ b.day_bits, t / 2 ^ b.day_bits⟩ := by
  have hcbtb : (2 : Nat) ^ b.ssn_offset = 2 ^ b.child_bits * 2 ^ b.time_bits := by
    rw [Bits.ssn_offset, pow_add]
  have hrest : c * 2 ^ b.child_offset + t < 2 ^ b.ssn_offset := by
    rw [hcbtb, Bits.child_offset]
    have h1 : c * 2 ^ b.time_bits + t < (c + 1) * 2 ^ b.time_bits := by
      rw [add_mul, one_mul]; omega
    calc c * 2 ^ b.time_bits + t < (c + 1) * 2 ^ b.time_bits := h1
      _ ≤ 2 ^ b.child_bits * 2 ^ b.time_bits :=
        Nat.mul_le_mul_right _ (by omega)
  have hN : s * 2 ^ b.ssn_offset + (c * 2 ^ b.child_offset + t) < 2 ^ 64 := by
    have h1 : s * 2 ^ b.ssn_offset + (c * 2 ^ b.child_offset + t)
        < (s + 1) * 2 ^ b.ssn_offset := by
      rw [add_mul, one_mul]; omega
    have h2 : (s + 1) * 2 ^ b.ssn_offset ≤ 2 ^ b.pop_bits * 2 ^ b.ssn_offset :=
      Nat.mul_le_mul_right _ (by omega)
    have h3 : (2 : Nat) ^ b.pop_bits * 2 ^ b.ssn_offset ≤ 2 ^ 64 := by
      rw [← pow_add]
      exact Nat.pow_le_pow_right (by omega) (by rw [Bits.ssn_offset]; omega)
    omega
  have hmod : (s * 2 ^ b.ssn_offset + c * 2 ^ b.child_offset + t) % 2 ^ 64
      = s * 2 ^ b.ssn_offset + c * 2 ^ b.child_offset + t := by
    apply Nat.mod_eq_of_lt; omega
  rw [parse_uid_eq, make_uid_eq, Nat.mod_mod_of_dvd _ dvd_rfl, hmod]
  simp only [Bits.child_offset]
  have hso : (0 : Nat) < 2 ^ b.ssn_offset := Nat.pos_pow_of_pos _ (by omega)
  have htb : (0 : Nat) < 2 ^ b.time_bits := Nat.pos_pow_of_pos _ (by omega)
  have e1 : (s * 2 ^ b.ssn_offset + c * 2 ^ b.time_bits + t) / 2 ^ b.ssn_offset = s := by
    have hre : c * 2 ^ b.time_bits + t < 2 ^ b.ssn_offset := by
      rw [Bits.child_offset] at hrest; exact hrest
    rw [add_assoc, Nat.mul_comm s, Nat.mul_add_div hso, Nat.div_eq_of_lt hre, Nat.add_zero]
  have e2 : (s * 2 ^ b.ssn_offset + c * 2 ^ b.time_bits + t) / 2 ^ b.time_bits
      % 2 ^ b.child_bits = c := by
    have hsplit : s * 2 ^ b.ssn_offset + c * 2 ^ b.time_bits + t
        = 2 ^ b.time_bits * (s * 2 ^ b.child_bits + c) + t := by
      rw [hcbtb]; ring
    rw [hsplit, Nat.mul_add_div htb, Nat.div_eq_of_lt ht, Nat.add_zero, Nat.mul_comm s,
      Nat.mul_add_mod, Nat.mod_eq_of_lt hc]
  have e3 : (s * 2 ^ b.ssn_offset + c * 2 ^ b.time_bits + t) % 2 ^ b.time_bits = t := by
    have hsplit : s * 2 ^ b.ssn_offset + c * 2 ^ b.time_bits + t
        = 2 ^ b.time_bits * (s * 2 ^ b.child_bits + c) + t := by
      rw [hcbtb]; ring
    rw [hsplit, Nat.mul_add_mod, Nat.mod_eq_of_lt ht]
  rw [e1, e2, e3]

/-- Reconstruction: a 64-bit word is recovered from its parsed fields, so
`parse_uid` is injective on `uint64` values. -/
theorem parse_uid_recompose (b : Bits) (u : Nat) (hu : u < 2 ^ 64) :
    (parse_uid b u).ssn * 2 ^ b.ssn_offset
      + (parse_uid b u).child * 2 ^ b.child_offset
      + ((parse_uid b u).year * 2 ^ b.day_bits + (parse_uid b u).day) = u := by
  rw [parse_uid_eq]
  simp only [Bits.child_offset, Nat.mod_eq_of_lt hu]
  rw [Nat.div_add_mod' (u % 2 ^ b.time_bits) (2 ^ b.day_bits)]
  have hsplit : (2 : Nat) ^ b.ssn_offset = 2 ^ b.child_bits * 2 ^ b.time_bits := by
    rw [Bits.ssn_offset, pow_add]
  have hC : u / 2 ^ b.time_bits / 2 ^ b.child_bits = u / 2 ^ b.ssn_offset := by
    rw [Nat.div_div_eq_div_mul, ← pow_add, Bits.ssn_offset,
      Nat.add_comm b.time_bits b.child_bits]
  calc u / 2 ^ b.ssn_offset * 2 ^ b.ssn_offset
        + u / 2 ^ b.time_bits % 2 ^ b.child_bits * 2 ^ b.time_bits
        + u % 2 ^ b.time_bits
      = (u / 2 ^ b.time_bits / 2 ^ b.child_bits * 2 ^ b.child_bits
          + u / 2 ^ b.time_bits % 2 ^ b.child_bits) * 2 ^ b.time_bits
        + u % 2 ^ b.time_bits := by
        rw [hC, hsplit]; ring
    _ = u / 2 ^ b.time_bits * 2 ^ b.time_bits + u % 2 ^ b.time_bits := by
        rw [Nat.div_add_mod']
    _ = u := Nat.div_add_mod' u _

theorem parse_uid_injOn (b : Bits) {u v : Nat} (hu : u < 2 ^ 64) (hv : v < 2 ^ 64)
    (h : parse_uid b u = parse_uid b v) : u = v := by
  have h1 := parse_uid_recompose b u hu
  have h2 := parse_uid_recompose b v hv
  rw [h] at h1
  omega

theorem div_pow_lt {x : Nat} (a e : Nat) (hx : x < 2 ^ a) : x / 2 ^ e < 2 ^ (a - e) := by
  rw [Nat.div_lt_iff_lt_mul (Nat.pos_pow_of_pos _ (by omega))]
  calc x < 2 ^ a := hx
    _ ≤ 2 ^ (a - e) * 2 ^ e := by
        rw [← pow_add]
        exact Nat.pow_le_pow_right (by omega) (by omega)

theorem demoBits_init : UidMap.init 10000 7300 8 256 = .ok ⟨demoBits, List.replicate 32 none⟩ := by
  decide

theorem smallBits_init : UidMap.init 4 8 2 2 = .ok ⟨smallBits, List.replicate 4 none⟩ := by
  decide

/-! ### Claim C2 -/

/-- Claim C2 (confirmed): for every `serialNumber`, `time` and `childSlot`
that fit in their configured bit widths (in a configuration whose field
widths fit in 64 bits), decoding the encoded UID returns
`(serialNumber, childSlot, time mod 2^dayBits, time div 2^dayBits)`. -/
theorem codec_round_trip (b : Bits) (s t c : Nat)
    (hsum : b.pop_bits + b.child_bits + b.time_bits ≤ 64)
    (hs : s < 2 ^ b.pop_bits) (ht : t < 2 ^ b.time_bits) (hc : c < 2 ^ b.child_bits) :
    parse_uid b (make_uid b s t c) = ⟨s, c, t % 2 ^ b.day_bits, t / 2 ^ b.day_bits⟩ :=
  parse_make_uid b s t c hsum hs ht hc

theorem codec_round_trip_witness :
    (smallBits.pop_bits + smallBits.child_bits + smallBits.time_bits ≤ 64
      ∧ 3 < 2 ^ smallBits.pop_bits ∧ 5 < 2 ^ smallBits.time_bits
      ∧ 1 < 2 ^ smallBits.child_bits)
    ∧ parse_uid smallBits (make_uid smallBits 3 5 1)
      = ⟨3, 1, 5 % 2 ^ smallBits.day_bits, 5 / 2 ^ smallBits.day_bits⟩ :=
  ⟨by decide, codec_round_trip smallBits 3 5 1 (by decide) (by decide) (by decide) (by decide)⟩

/-! ### Claim C9 -/

/-- Claim C9 (confirmed): for every 64-bit uid the decoded `year`, `child`
and `day` are below `2^yearBits`, `2^childBits` and `2^dayBits` (the masks
keep levels 1-3 in bounds), while the decoded `ssn` is only bounded by
`2^(64 - ssnOffset)`; whenever `popBits + ssnOffset < 64` some 64-bit uid
decodes to an `ssn` at or above `2^popBits`, so the serial number is the
only coordinate that can index out of range. -/
theorem decode_bounds (b : Bits) (uid : Nat) (h64 : b.pop_bits + b.ssn_offset < 64) :
    (parse_uid b uid).year < 2 ^ b.year_bits ∧
    (parse_uid b uid).child < 2 ^ b.child_bits ∧
    (parse_uid b uid).day < 2 ^ b.day_bits ∧
    (parse_uid b uid).ssn < 2 ^ (64 - b.ssn_offset) ∧
    ∃ u, u < 2 ^ 64 ∧ 2 ^ b.pop_bits ≤ (parse_uid b u).ssn := by
  rw [parse_uid_eq]
  have hu : uid % 2 ^ 64 < 2 ^ 64 := Nat.mod_lt _ (by positivity)
  have htmod : uid % 2 ^ 64 % 2 ^ b.time_bits < 2 ^ b.time_bits :=
    Nat.mod_lt _ (by positivity)
  refine ⟨?_, ?_, ?_, ?_, ?_⟩
  · rw [Bits.year_bits]
    exact div_pow_lt b.time_bits b.day_bits htmod
  · exact Nat.mod_lt _ (by positivity)
  · exact Nat.mod_lt _ (by positivity)
  · exact div_pow_lt 64 b.ssn_offset hu
  · refine ⟨2 ^ b.pop_bits * 2 ^ b.ssn_offset, ?_, ?_⟩
    · rw [← pow_add]
      exact Nat.pow_lt_pow_right (by omega) (by omega)
    · rw [parse_uid_eq]
      have hlt : 2 ^ b.pop_bits * 2 ^ b.ssn_offset < 2 ^ 64 := by
        rw [← pow_add]
        exact Nat.pow_lt_pow_right (by omega) (by omega)
      rw [Nat.mod_eq_of_lt hlt, Nat.mul_div_cancel _ (by positivity)]

theorem decode_bounds_witness :
    smallBits.pop_bits + smallBits.ssn_offset < 64 ∧
    ((parse_uid smallBits 12345).year < 2 ^ smallBits.year_bits ∧
     (parse_uid smallBits 12345).child < 2 ^ smallBits.child_bits ∧
     (parse_uid smallBits 12345).day < 2 ^ smallBits.day_bits ∧
     (parse_uid smallBits 12345).ssn < 2 ^ (64 - smallBits.ssn_offset) ∧
     ∃ u, u < 2 ^ 64 ∧ 2 ^ smallBits.pop_bits ≤ (parse_uid smallBits u).ssn) :=
  ⟨by decide, decode_bounds smallBits 12345 (by decide)⟩

/-! ### Claim C6 -/

/-- Claim C6 (corrected): encoding an input that exceeds its field width
raises no error, but the excess bits are not discarded within the field:
they carry into the next-higher field.  A `childSlot` overflow of
`2^childBits * k` adds `k` to the serial-number field, a `time` overflow of
`2^timeBits * j` adds `j` to the child field, and only serial-number bits
at or above bit 64 are discarded, by the final reduction modulo `2^64`. -/
theorem encode_overflow_carries (b : Bits) (s t c k j i : Nat) (hso : b.ssn_offset ≤ 64) :
    make_uid b s t (c + 2 ^ b.child_bits * k) = make_uid b (s + k) t c ∧
    make_uid b s (t + 2 ^ b.time_bits * j) c = make_uid b s t (c + j) ∧
    make_uid b (s + 2 ^ (64 - b.ssn_offset) * i) t c = make_uid b s t c := by
  refine ⟨?_, ?_, ?_⟩
  · rw [make_uid_eq, make_uid_eq]
    have hpow : (2 : Nat) ^ b.ssn_offset = 2 ^ b.child_bits * 2 ^ b.child_offset := by
      rw [Bits.ssn_offset, Bits.child_offset, pow_add]
    have harith : s * 2 ^ b.ssn_offset + (c + 2 ^ b.child_bits * k) * 2 ^ b.child_offset + t
        = (s + k) * 2 ^ b.ssn_offset + c * 2 ^ b.child_offset + t := by
      rw [hpow]; ring
    rw [harith]
  · rw [make_uid_eq, make_uid_eq]
    have harith : s * 2 ^ b.ssn_offset + c * 2 ^ b.child_offset
          + (t + 2 ^ b.time_bits * j)
        = s * 2 ^ b.ssn_offset + (c + j) * 2 ^ b.child_offset + t := by
      rw [Bits.child_offset]; ring
    rw [harith]
  · rw [make_uid_eq, make_uid_eq]
    have hpow : (2 : Nat) ^ (64 - b.ssn_offset) * 2 ^ b.ssn_offset = 2 ^ 64 := by
      rw [← pow_add, Nat.sub_add_cancel hso]
    have harith : (s + 2 ^ (64 - b.ssn_offset) * i) * 2 ^ b.ssn_offset
          + c * 2 ^ b.child_offset + t
        = (s * 2 ^ b.ssn_offset + c * 2 ^ b.child_offset + t) + i * 2 ^ 64 := by
      calc (s + 2 ^ (64 - b.ssn_offset) * i) * 2 ^ b.ssn_offset
            + c * 2 ^ b.child_offset + t
          = s * 2 ^ b.ssn_offset + c * 2 ^ b.child_offset + t
            + i * (2 ^ (64 - b.ssn_offset) * 2 ^ b.ssn_offset) := by ring
        _ = s * 2 ^ b.ssn_offset + c * 2 ^ b.child_offset + t + i * 2 ^ 64 := by
            rw [hpow]
    rw [harith, Nat.add_mul_mod_self_right]

theorem encode_overflow_carries_witness :
    demoBits.ssn_offset ≤ 64 ∧
    (make_uid demoBits 0 0 (0 + 2 ^ demoBits.child_bits * 1) = make_uid demoBits (0 + 1) 0 0 ∧
     make_uid demoBits 0 (0 + 2 ^ demoBits.time_bits * 1) 0 = make_uid demoBits 0 0 (0 + 1) ∧
     make_uid demoBits (0 + 2 ^ (64 - demoBits.ssn_offset) * 1) 0 0 = make_uid demoBits 0 0 0) :=
  ⟨by decide, encode_overflow_carries demoBits 0 0 0 1 1 1 (by decide)⟩

/-- Claim C6 counterexample: in the demo configuration `childSlot = 8`
overflows the 3-bit child field.  The claim as stated predicts the
overflowing field wraps modulo its width without disturbing the others,
i.e. the same UID as `childSlot = 8 mod 8 = 0`, namely 0; the encoder
instead produces 65536, whose decoded serial number is 1. -/
theorem encode_overflow_disturbs_ssn :
    make_uid demoBits 0 0 8 = 65536 ∧
    make_uid demoBits 0 0 (8 % 2 ^ demoBits.child_bits) = 0 ∧
    (parse_uid demoBits (make_uid demoBits 0 0 8)).ssn = 1 := by
  decide

/-! ### Inverting a successful insert -/

theorem add_ok_elim {m : UidMap} {uid idx : Nat} {m' : UidMap}
    (h : add_individual m uid idx = .ok m') :
    ∃ (yEntry : Option ChildTable) (cEntry : Option DayTable) (dEntry : Option SsnArray),
      m.mapping[(parse_uid m.bits (uid % 2 ^ 64)).year]? = some yEntry ∧
      (yEntry.getD (freshChild m.bits))[(parse_uid m.bits (uid % 2 ^ 64)).child]?
        = some cEntry ∧
      (cEntry.getD (freshDay m.bits))[(parse_uid m.bits (uid % 2 ^ 64)).day]?
        = some dEntry ∧
      (parse_uid m.bits (uid % 2 ^ 64)).ssn < (dEntry.getD (freshArr m.bits)).length ∧
      m' = ⟨m.bits,
        m.mapping.set (parse_uid m.bits (uid % 2 ^ 64)).year
          (some ((yEntry.getD (freshChild m.bits)).set
            (parse_uid m.bits (uid % 2 ^ 64)).child
            (some ((cEntry.getD (freshDay m.bits)).set
              (parse_uid m.bits (uid % 2 ^ 64)).day
              (some ((dEntry.getD (freshArr m.bits)).set
                (parse_uid m.bits (uid % 2 ^ 64)).ssn
                ⟨idx % 2 ^ 64, uid % 2 ^ 64⟩))))))⟩ := by
  simp only [add_individual] at h
  split at h
  · exact Except.noConfusion h
  · rename_i yEntry hY
    split at h
    · exact Except.noConfusion h
    · rename_i cEntry hC
      split at h
      · exact Except.noConfusion h
      · rename_i dEntry hD
        split at h
        · rename_i hlt
          refine ⟨yEntry, cEntry, dEntry, hY, hC, hD, hlt, ?_⟩
          injection h with h1
          exact h1.symm
        · exact Except.noConfusion h

/-! ### How one insert changes the table, slot by slot -/

theorem freshChild_entries {b : Bits} {i : Nat} {x : Option DayTable}
    (h : (freshChild b)[i]? = some x) : x = none := by
  rw [freshChild, List.getElem?_replicate] at h
  split at h
  · injection h with h1; exact h1.symm
  · exact Option.noConfusion h

theorem freshDay_entries {b : Bits} {i : Nat} {x : Option SsnArray}
    (h : (freshDay b)[i]? = some x) : x = none := by
  rw [freshDay, List.getElem?_replicate] at h
  split at h
  · injection h with h1; exact h1.symm
  · exact Option.noConfusion h

theorem freshArr_entries {b : Bits} {i : Nat} {x : Slot}
    (h : (freshArr b)[i]? = some x) : x = ⟨sentinel, 0⟩ := by
  rw [freshArr, List.getElem?_replicate] at h
  split at h
  · injection h with h1; exact h1.symm
  · exact Option.noConfusion h

theorem slotAt_add {m m' : UidMap} {uid idx : Nat} (hwf : WF m)
    (h : add_individual m uid idx = .ok m') (y c d s : Nat) :
    slotAt m' y c d s = stepSlot m.bits y c d s (slotAt m y c d s) (uid, idx) := by
  obtain ⟨yE, cE, dE, hY, hC, hD, hlt, hm'⟩ := add_ok_elim h
  obtain ⟨hlen, hwf2⟩ := hwf
  set q := parse_uid m.bits (uid % 2 ^ 64) with hqdef
  have hylt : q.year < m.mapping.length := (List.getElem?_eq_some_iff.mp hY).1
  have hclt : q.child < (yE.getD (freshChild m.bits)).length :=
    (List.getElem?_eq_some_iff.mp hC).1
  have hdlt : q.day < (cE.getD (freshDay m.bits)).length :=
    (List.getElem?_eq_some_iff.mp hD).1
  have hARlen : (dE.getD (freshArr m.bits)).length = 2 ^ m.bits.pop_bits := by
    cases dE with
    | none => simp [freshArr]
    | some arr =>
      cases cE with
      | none => exact absurd (freshDay_entries (by simpa using hD)) (by simp)
      | some dl0 =>
        cases yE with
        | none => exact absurd (freshChild_entries (by simpa using hC)) (by simp)
        | some cl0 =>
          exact ((hwf2 q.year cl0 hY).2 q.child dl0 (by simpa using hC)).2 q.day arr
            (by simpa using hD)
  subst hm'
  set AR1 := (dE.getD (freshArr m.bits)).set q.ssn (⟨idx % 2 ^ 64, uid % 2 ^ 64⟩ : Slot)
    with hAR1
  set DL1 := (cE.getD (freshDay m.bits)).set q.day (some AR1) with hDL1
  set CL1 := (yE.getD (freshChild m.bits)).set q.child (some DL1) with hCL1
  have hcond : ∀ (X : Option Slot),
      stepSlot m.bits y c d s X (uid, idx)
        = if s = q.ssn ∧ c = q.child ∧ d = q.day ∧ y = q.year then
            some ⟨idx % 2 ^ 64, uid % 2 ^ 64⟩
          else if c = q.child ∧ d = q.day ∧ y = q.year ∧ s < 2 ^ m.bits.pop_bits then
            some (X.getD ⟨sentinel, 0⟩)
          else X := by
    intro X
    simp only [stepSlot]
  rw [hcond]
  by_cases hy : y = q.year
  case neg =>
    rw [if_neg (fun hh => hy hh.2.2.2), if_neg (fun hh => hy hh.2.2.1)]
    simp only [slotAt]
    rw [List.getElem?_set_ne (fun hh => hy hh.symm)]
  case pos =>
    subst hy
    have hL : slotAt ⟨m.bits, m.mapping.set q.year (some CL1)⟩ q.year c d s
        = level2 CL1 c d s := by
      simp [slotAt, List.getElem?_set_self hylt]
    rw [hL]
    by_cases hc : c = q.child
    case neg =>
      rw [if_neg (fun hh => hc hh.2.1), if_neg (fun hh => hc hh.1), hCL1]
      simp only [level2]
      rw [List.getElem?_set_ne (fun hh => hc hh.symm)]
      cases yE with
      | some cl0 => simp [slotAt, hY, level2]
      | none =>
        simp only [Option.getD_none]
        cases hfc : (freshChild m.bits)[c]? with
        | none => simp [slotAt, hY, hfc]
        | some x =>
          have hx := freshChild_entries hfc
          subst hx
          simp [slotAt, hY, hfc]
    case pos =>
      subst hc
      have hL2 : level2 CL1 q.child d s = level3 DL1 d s := by
        rw [hCL1]
        simp [level2, List.getElem?_set_self hclt]
      rw [hL2]
      by_cases hd : d = q.day
      case neg =>
        rw [if_neg (fun hh => hd hh.2.2.1), if_neg (fun hh => hd hh.2.1), hDL1]
        simp only [level3]
        rw [List.getElem?_set_ne (fun hh => hd hh.symm)]
        cases cE with
        | some dl0 =>
          have hyEsome : ∃ cl0, yE = some cl0 := by
            cases yE with
            | none => exact absurd (freshChild_entries (by simpa using hC)) (by simp)
            | some cl0 => exact ⟨cl0, rfl⟩
          obtain ⟨cl0, rfl⟩ := hyEsome
          have hcl0 : cl0[q.child]? = some (some dl0) := by simpa using hC
          simp [slotAt, hY, level2, hcl0, level3]
        | none =>
          simp only [Option.getD_none]
          have hrhs : slotAt m q.year q.child d s = none := by
            cases yE with
            | none => simp [slotAt, hY]
            | some cl0 =>
              have hcl0 : cl0[q.child]? = some none := by simpa using hC
              simp [slotAt, hY, level2, hcl0]
          rw [hrhs]
          cases hfd : (freshDay m.bits)[d]? with
          | none => simp [level3, hfd]
          | some x =>
            have hx := freshDay_entries hfd
            subst hx
            simp [level3, hfd]
      case pos =>
        subst hd
        have hL3 : level3 DL1 q.day s = AR1[s]? := by
          rw [hDL1]
          simp [level3, List.getElem?_set_self hdlt]
        rw [hL3]
        by_cases hs : s = q.ssn
        case pos =>
          subst hs
          rw [if_pos ⟨rfl, rfl, rfl, rfl⟩, hAR1, List.getElem?_set_self hlt]
        case neg =>
          rw [if_neg (fun hh => hs hh.1), hAR1,
            List.getElem?_set_ne (fun hh => hs hh.symm)]
          cases dE with
          | none =>
            simp only [Option.getD_none]
            have hprev : slotAt m q.year q.child q.day s = none := by
              cases cE with
              | none =>
                cases yE with
                | none => simp [slotAt, hY]
                | some cl0 =>
                  have hcl0 : cl0[q.child]? = some none := by simpa using hC
                  simp [slotAt, hY, level2, hcl0]
              | some dl0 =>
                have hyEsome : ∃ cl0, yE = some cl0 := by
                  cases yE with
                  | none => exact absurd (freshChild_entries (by simpa using hC)) (by simp)
                  | some cl0 => exact ⟨cl0, rfl⟩
                obtain ⟨cl0, rfl⟩ := hyEsome
                have hcl0 : cl0[q.child]? = some (some dl0) := by simpa using hC
                have hdl0 : dl0[q.day]? = some none := by simpa using hD
                simp [slotAt, hY, level2, hcl0, level3, hdl0]
            rw [hprev]
            by_cases hslt : s < 2 ^ m.bits.pop_bits
            case pos =>
              rw [if_pos (show _ ∧ _ ∧ _ ∧ _ by simp [hslt])]
              simp [freshArr, List.getElem?_replicate, hslt]
            case neg =>
              rw [if_neg (fun hh => hslt hh.2.2.2)]
              simp [freshArr, List.getElem?_replicate, hslt]
          | some arr =>
            have hcEsome : ∃ dl0, cE = some dl0 := by
              cases cE with
              | none => exact absurd (freshDay_entries (by simpa using hD)) (by simp)
              | some dl0 => exact ⟨dl0, rfl⟩
            obtain ⟨dl0, rfl⟩ := hcEsome
            have hyEsome : ∃ cl0, yE = some cl0 := by
              cases yE with
              | none => exact absurd (freshChild_entries (by simpa using hC)) (by simp)
              | some cl0 => exact ⟨cl0, rfl⟩
            obtain ⟨cl0, rfl⟩ := hyEsome
            have hcl0 : cl0[q.child]? = some (some dl0) := by simpa using hC
            have hdl0 : dl0[q.day]? = some (some arr) := by simpa using hD
            have hprev : slotAt m q.year q.child q.day s = arr[s]? := by
              simp [slotAt, hY, level2, hcl0, level3, hdl0]
            rw [hprev]
            simp only [Option.getD_some]
            by_cases hslt : s < 2 ^ m.bits.pop_bits
            case pos =>
              rw [if_pos (show _ ∧ _ ∧ _ ∧ _ by simp [hslt])]
              have hsarr : s < arr.length := by
                have harrlen : arr.length = 2 ^ m.bits.pop_bits := by simpa using hARlen
                omega
              rw [List.getElem?_eq_getElem hsarr]
              simp
            case neg =>
              rw [if_neg (fun hh => hslt hh.2.2.2)]

theorem bits_add {m m' : UidMap} {uid idx : Nat}
    (h : add_individual m uid idx = .ok m') : m'.bits = m.bits := by
  obtain ⟨yE, cE, dE, hY, hC, hD, hlt, hm'⟩ := add_ok_elim h
  rw [hm']

theorem WF_add {m m' : UidMap} {uid idx : Nat} (hwf : WF m)
    (h : add_individual m uid idx = .ok m') : WF m' := by
  obtain ⟨yE, cE, dE, hY, hC, hD, hlt, hm'⟩ := add_ok_elim h
  obtain ⟨hlen, hwf2⟩ := hwf
  set q := parse_uid m.bits (uid % 2 ^ 64) with hqdef
  have hylt : q.year < m.mapping.length := (List.getElem?_eq_some_iff.mp hY).1
  have hclt : q.child < (yE.getD (freshChild m.bits)).length :=
    (List.getElem?_eq_some_iff.mp hC).1
  have hdlt : q.day < (cE.getD (freshDay m.bits)).length :=
    (List.getElem?_eq_some_iff.mp hD).1
  have hCLlen : (yE.getD (freshChild m.bits)).length = 2 ^ m.bits.child_bits := by
    cases yE with
    | none => simp [freshChild]
    | some cl0 => exact (hwf2 q.year cl0 hY).1
  have hDLlen : (cE.getD (freshDay m.bits)).length = 2 ^ m.bits.day_bits := by
    cases cE with
    | none => simp [freshDay]
    | some dl0 =>
      cases yE with
      | none => exact absurd (freshChild_entries (by simpa using hC)) (by simp)
      | some cl0 => exact ((hwf2 q.year cl0 hY).2 q.child dl0 (by simpa using hC)).1
  have hARlen : (dE.getD (freshArr m.bits)).length = 2 ^ m.bits.pop_bits := by
    cases dE with
    | none => simp [freshArr]
    | some arr =>
      cases cE with
      | none => exact absurd (freshDay_entries (by simpa using hD)) (by simp)
      | some dl0 =>
        cases yE with
        | none => exact absurd (freshChild_entries (by simpa using hC)) (by simp)
        | some cl0 =>
          exact ((hwf2 q.year cl0 hY).2 q.child dl0 (by simpa using hC)).2 q.day arr
            (by simpa using hD)
  subst hm'
  set AR1 := (dE.getD (freshArr m.bits)).set q.ssn (⟨idx % 2 ^ 64, uid % 2 ^ 64⟩ : Slot)
    with hAR1
  set DL1 := (cE.getD (freshDay m.bits)).set q.day (some AR1) with hDL1
  set CL1 := (yE.getD (freshChild m.bits)).set q.child (some DL1) with hCL1
  refine ⟨by simpa using hlen, ?_⟩
  intro y cl hy
  simp only at hy ⊢
  by_cases hyq : y = q.year
  · subst hyq
    rw [List.getElem?_set_self hylt] at hy
    have hcl : cl = CL1 := by
      injection hy with h1
      injection h1 with h2
      exact h2.symm
    subst hcl
    refine ⟨by rw [hCL1]; simp [hCLlen], ?_⟩
    intro c dl hc2
    by_cases hcq : c = q.child
    · subst hcq
      rw [hCL1, List.getElem?_set_self hclt] at hc2
      have hdl : dl = DL1 := by
        injection hc2 with h1
        injection h1 with h2
        exact h2.symm
      subst hdl
      refine ⟨by rw [hDL1]; simp [hDLlen], ?_⟩
      intro d arr hd2
      by_cases hdq : d = q.day
      · subst hdq
        rw [hDL1, List.getElem?_set_self hdlt] at hd2
        have harr : arr = AR1 := by
          injection hd2 with h1
          injection h1 with h2
          exact h2.symm
        subst harr
        rw [hAR1]
        simp [hARlen]
      · rw [hDL1, List.getElem?_set_ne (fun hh => hdq hh.symm)] at hd2
        cases cE with
        | none => exact absurd (freshDay_entries (by simpa using hd2)) (by simp)
        | some dl0 =>
          have hyEsome : ∃ cl0, yE = some cl0 := by
            cases yE with
            | none => exact absurd (freshChild_entries (by simpa using hC)) (by simp)
            | some cl0 => exact ⟨cl0, rfl⟩
          obtain ⟨cl0, rfl⟩ := hyEsome
          have hcl0 : cl0[q.child]? = some (some dl0) := by simpa using hC
          have hdl0d : dl0[d]? = some (some arr) := by simpa using hd2
          exact ((hwf2 q.year cl0 hY).2 q.child dl0 hcl0).2 d arr hdl0d
    · rw [hCL1, List.getElem?_set_ne (fun hh => hcq hh.symm)] at hc2
      cases yE with
      | none => exact absurd (freshChild_entries (by simpa using hc2)) (by simp)
      | some cl0 =>
        have hcl0c : cl0[c]? = some (some dl) := by simpa using hc2
        exact (hwf2 q.year cl0 hY).2 c dl hcl0c
  · rw [List.getElem?_set_ne (fun hh => hyq hh.symm)] at hy
    exact hwf2 y cl hy

theorem replicate_none_entries {α : Type} {n i : Nat} {x : Option α}
    (h : (List.replicate n (none : Option α))[i]? = some x) : x = none := by
  rw [List.getElem?_replicate] at h
  split at h
  · injection h with h1; exact h1.symm
  · exact Option.noConfusion h

theorem init_ok_elim {a b c d : Nat} {m : UidMap} (h : UidMap.init a b c d = .ok m) :
    m = ⟨⟨clog2 a, clog2 b, clog2 c, clog2 d⟩,
         List.replicate (2 ^ (clog2 b - clog2 d)) none⟩ := by
  simp only [UidMap.init] at h
  split at h
  · exact Except.noConfusion h
  · split at h
    · exact Except.noConfusion h
    · injection h with h1
      rw [← h1]
      rfl

theorem WF_init {a b c d : Nat} {m : UidMap} (h : UidMap.init a b c d = .ok m) : WF m := by
  rw [init_ok_elim h]
  refine ⟨by simp [Bits.year_bits], ?_⟩
  intro y cl hy
  exact absurd (replicate_none_entries hy) (by simp)

theorem slotAt_init {a b c d : Nat} {m : UidMap} (h : UidMap.init a b c d = .ok m)
    (y c0 d0 s : Nat) : slotAt m y c0 d0 s = none := by
  rw [init_ok_elim h]
  simp only [slotAt]
  cases hre : (List.replicate (2 ^ (clog2 b - clog2 d)) (none : Option ChildTable))[y]? with
  | none => simp [hre]
  | some x =>
    have hx := replicate_none_entries hre
    subst hx
    simp [hre]

theorem runInserts_slotAt {m m' : UidMap} {ops : List (Nat × Nat)} (hwf : WF m)
    (h : runInserts m ops = .ok m') :
    m'.bits = m.bits ∧ WF m' ∧
    ∀ y c d s, slotAt m' y c d s
      = ops.foldl (stepSlot m.bits y c d s) (slotAt m y c d s) := by
  induction ops generalizing m with
  | nil =>
    simp only [runInserts] at h
    injection h with h1
    subst h1
    exact ⟨rfl, hwf, fun y c d s => rfl⟩
  | cons p rest ih =>
    obtain ⟨u, i⟩ := p
    simp only [runInserts] at h
    split at h
    · exact Except.noConfusion h
    · rename_i m1 hadd
      have hb := bits_add hadd
      have hw1 := WF_add hwf hadd
      obtain ⟨hb2, hw2, hs2⟩ := ih hw1 h
      refine ⟨hb2.trans hb, hw2, ?_⟩
      intro y c d s
      rw [List.foldl_cons, ← slotAt_add hwf hadd y c d s, ← hb]
      exact hs2 y c d s

theorem get_index_cases (m : UidMap) (uid : Nat) :
    (∃ slot, slotAt m (parse_uid m.bits (uid % 2 ^ 64)).year
        (parse_uid m.bits (uid % 2 ^ 64)).child
        (parse_uid m.bits (uid % 2 ^ 64)).day
        (parse_uid m.bits (uid % 2 ^ 64)).ssn = some slot
      ∧ get_index m uid = .ok slot.index) ∨
    (slotAt m (parse_uid m.bits (uid % 2 ^ 64)).year
        (parse_uid m.bits (uid % 2 ^ 64)).child
        (parse_uid m.bits (uid % 2 ^ 64)).day
        (parse_uid m.bits (uid % 2 ^ 64)).ssn = none
      ∧ ∃ e, get_index m uid = .error e) := by
  simp only [get_index]
  set q := parse_uid m.bits (uid % 2 ^ 64) with hq
  cases hY : m.mapping[q.year]? with
  | none => exact Or.inr ⟨by simp [slotAt, hY], ⟨.indexOutOfBounds, rfl⟩⟩
  | some yE =>
    cases yE with
    | none => exact Or.inr ⟨by simp [slotAt, hY], ⟨.noneSubscript, rfl⟩⟩
    | some cl =>
      dsimp only
      cases hC : cl[q.child]? with
      | none => exact Or.inr ⟨by simp [slotAt, hY, level2, hC], ⟨.indexOutOfBounds, rfl⟩⟩
      | some cE =>
        cases cE with
        | none => exact Or.inr ⟨by simp [slotAt, hY, level2, hC], ⟨.noneSubscript, rfl⟩⟩
        | some dl =>
          dsimp only
          cases hD : dl[q.day]? with
          | none =>
            exact Or.inr ⟨by simp [slotAt, hY, level2, hC, level3, hD],
              ⟨.indexOutOfBounds, rfl⟩⟩
          | some dE =>
            cases dE with
            | none =>
              exact Or.inr ⟨by simp [slotAt, hY, level2, hC, level3, hD],
                ⟨.noneSubscript, rfl⟩⟩
            | some arr =>
              dsimp only
              cases hS : arr[q.ssn]? with
              | none =>
                exact Or.inr ⟨by simp [slotAt, hY, level2, hC, level3, hD, hS],
                  ⟨.indexOutOfBounds, rfl⟩⟩
              | some slot =>
                exact Or.inl ⟨slot, by simp [slotAt, hY, level2, hC, level3, hD, hS], rfl⟩

/-! ### Parse bounds and path lengths -/

theorem parse_year_lt (b : Bits) (u : Nat) : (parse_uid b u).year < 2 ^ b.year_bits := by
  rw [parse_uid_eq, Bits.year_bits]
  exact div_pow_lt b.time_bits b.day_bits (Nat.mod_lt _ (by positivity))

theorem parse_child_lt (b : Bits) (u : Nat) : (parse_uid b u).child < 2 ^ b.child_bits := by
  rw [parse_uid_eq]
  exact Nat.mod_lt _ (by positivity)

theorem parse_day_lt (b : Bits) (u : Nat) : (parse_uid b u).day < 2 ^ b.day_bits := by
  rw [parse_uid_eq]
  exact Nat.mod_lt _ (by positivity)

theorem path_arrlen {m : UidMap} (hwf : WF m) {yE : Option ChildTable}
    {cE : Option DayTable} {dE : Option SsnArray} {Y C D : Nat}
    (hY : m.mapping[Y]? = some yE)
    (hC : (yE.getD (freshChild m.bits))[C]? = some cE)
    (hD : (cE.getD (freshDay m.bits))[D]? = some dE) :
    (dE.getD (freshArr m.bits)).length = 2 ^ m.bits.pop_bits := by
  obtain ⟨hlen, hwf2⟩ := hwf
  cases dE with
  | none => simp [freshArr]
  | some arr =>
    cases cE with
    | none => exact absurd (freshDay_entries (by simpa using hD)) (by simp)
    | some dl0 =>
      cases yE with
      | none => exact absurd (freshChild_entries (by simpa using hC)) (by simp)
      | some cl0 =>
        exact ((hwf2 Y cl0 hY).2 C dl0 (by simpa using hC)).2 D arr (by simpa using hD)

theorem add_ok_ssn_lt {m m' : UidMap} {uid idx : Nat} (hwf : WF m)
    (h : add_individual m uid idx = .ok m') :
    (parse_uid m.bits (uid % 2 ^ 64)).ssn < 2 ^ m.bits.pop_bits := by
  obtain ⟨yE, cE, dE, hY, hC, hD, hlt, _⟩ := add_ok_elim h
  rw [path_arrlen hwf hY hC hD] at hlt
  exact hlt

theorem runInserts_ssn_lt {m m' : UidMap} {ops : List (Nat × Nat)} (hwf : WF m)
    (hrun : runInserts m ops = .ok m') :
    ∀ p ∈ ops, (parse_uid m.bits (p.1 % 2 ^ 64)).ssn < 2 ^ m.bits.pop_bits := by
  induction ops generalizing m with
  | nil => intro p hp; simp at hp
  | cons p0 rest ih =>
    simp only [runInserts] at hrun
    split at hrun
    · exact Except.noConfusion hrun
    · rename_i m1 hadd
      intro p hp
      rcases List.mem_cons.mp hp with rfl | hp2
      · exact add_ok_ssn_lt hwf hadd
      · have hres := ih (WF_add hwf hadd) hrun p hp2
        rwa [bits_add hadd] at hres

theorem slotAt_ssn_lt {m : UidMap} (hwf : WF m) {y c d s : Nat} {slot : Slot}
    (h : slotAt m y c d s = some slot) : s < 2 ^ m.bits.pop_bits := by
  obtain ⟨hlen, hwf2⟩ := hwf
  simp only [slotAt] at h
  cases hY : m.mapping[y]? with
  | none => rw [hY] at h; exact Option.noConfusion h
  | some yv =>
    rw [hY] at h
    cases yv with
    | none => exact Option.noConfusion h
    | some cl =>
      simp only [Option.join, Option.some_bind, id_eq, level2] at h
      cases hC : cl[c]? with
      | none => rw [hC] at h; exact Option.noConfusion h
      | some cv =>
        rw [hC] at h
        cases cv with
        | none => exact Option.noConfusion h
        | some dl =>
          simp only [Option.join, Option.some_bind, id_eq, level3] at h
          cases hD : dl[d]? with
          | none => rw [hD] at h; exact Option.noConfusion h
          | some dv =>
            rw [hD] at h
            cases dv with
            | none => exact Option.noConfusion h
            | some arr =>
              simp only [Option.join, Option.some_bind, id_eq] at h
              have hs : s < arr.length := (List.getElem?_eq_some_iff.mp h).1
              have harr := ((hwf2 y cl hY).2 c dl hC).2 d arr hD
              omega

/-! ### The fold over a history of inserts -/

theorem parsed_eq_iff {q : Parsed} {s c d y : Nat} :
    q = (⟨s, c, d, y⟩ : Parsed) ↔ s = q.ssn ∧ c = q.child ∧ d = q.day ∧ y = q.year := by
  cases q with
  | mk a1 a2 a3 a4 =>
    simp only [Parsed.mk.injEq]
    constructor
    · rintro ⟨h1, h2, h3, h4⟩
      exact ⟨h1.symm, h2.symm, h3.symm, h4.symm⟩
    · rintro ⟨h1, h2, h3, h4⟩
      exact ⟨h1.symm, h2.symm, h3.symm, h4.symm⟩

theorem foldl_stepSlot_of_lastWrite_some {b : Bits} {ops : List (Nat × Nat)} {y c d s : Nat}
    {p : Nat × Nat} (h : lastWrite b ops y c d s = some p) (init : Option Slot) :
    ops.foldl (stepSlot b y c d s) init = some ⟨p.2 % 2 ^ 64, p.1 % 2 ^ 64⟩ := by
  induction ops using List.reverseRecOn generalizing init with
  | nil => simp [lastWrite] at h
  | append_singleton l p0 ih =>
    rw [List.foldl_append, List.foldl_cons, List.foldl_nil]
    simp only [lastWrite, List.filter_append] at h
    by_cases hp0 : parse_uid b (p0.1 % 2 ^ 64) = (⟨s, c, d, y⟩ : Parsed)
    · have hfil : List.filter
          (fun p => decide (parse_uid b (p.1 % 2 ^ 64) = (⟨s, c, d, y⟩ : Parsed))) [p0]
          = [p0] := by
        rw [List.filter_cons, if_pos (decide_eq_true hp0)]
        rfl
      rw [hfil, List.getLast?_concat] at h
      injection h with h1
      subst h1
      simp only [stepSlot]
      rw [if_pos (parsed_eq_iff.mp hp0)]
    · have hfil : List.filter
          (fun p => decide (parse_uid b (p.1 % 2 ^ 64) = (⟨s, c, d, y⟩ : Parsed))) [p0]
          = [] := by
        rw [List.filter_cons, if_neg (fun hc => hp0 (of_decide_eq_true hc))]
        rfl
      rw [hfil, List.append_nil] at h
      rw [ih h init]
      simp only [stepSlot]
      rw [if_neg (fun hc1 => hp0 (parsed_eq_iff.mpr hc1))]
      by_cases hc2 : c = (parse_uid b (p0.1 % 2 ^ 64)).child
          ∧ d = (parse_uid b (p0.1 % 2 ^ 64)).day
          ∧ y = (parse_uid b (p0.1 % 2 ^ 64)).year ∧ s < 2 ^ b.pop_bits
      · rw [if_pos hc2]
        rfl
      · rw [if_neg hc2]

theorem foldl_stepSlot_of_lastWrite_none {b : Bits} {ops : List (Nat × Nat)} {y c d s : Nat}
    (h : lastWrite b ops y c d s = none) (init : Option Slot) :
    ops.foldl (stepSlot b y c d s) init = init
      ∨ ops.foldl (stepSlot b y c d s) init = some (init.getD ⟨sentinel, 0⟩) := by
  induction ops using List.reverseRecOn with
  | nil => exact Or.inl rfl
  | append_singleton l p0 ih =>
    rw [List.foldl_append, List.foldl_cons, List.foldl_nil]
    simp only [lastWrite, List.filter_append, List.getLast?_eq_none_iff,
      List.append_eq_nil] at h
    obtain ⟨hl, hp0f⟩ := h
    have hl' : lastWrite b l y c d s = none := by
      simp only [lastWrite, List.getLast?_eq_none_iff]
      exact hl
    have hp0 : ¬ parse_uid b (p0.1 % 2 ^ 64) = (⟨s, c, d, y⟩ : Parsed) := by
      intro hp
      rw [List.filter_cons, if_pos (decide_eq_true hp)] at hp0f
      exact List.noConfusion hp0f
    have hstep : ∀ (X : Option Slot),
        stepSlot b y c d s X (p0.1, p0.2) = X
          ∨ stepSlot b y c d s X (p0.1, p0.2) = some (X.getD ⟨sentinel, 0⟩) := by
      intro X
      simp only [stepSlot]
      rw [if_neg (fun hc1 => hp0 (parsed_eq_iff.mpr hc1))]
      by_cases hc2 : c = (parse_uid b (p0.1 % 2 ^ 64)).child
          ∧ d = (parse_uid b (p0.1 % 2 ^ 64)).day
          ∧ y = (parse_uid b (p0.1 % 2 ^ 64)).year ∧ s < 2 ^ b.pop_bits
      · rw [if_pos hc2]
        exact Or.inr rfl
      · rw [if_neg hc2]
        exact Or.inl rfl
    rcases ih hl' with h1 | h1 <;> rw [h1]
    · exact hstep init
    · rcases hstep (some (init.getD ⟨sentinel, 0⟩)) with h2 | h2 <;> rw [h2]
      · exact Or.inr rfl
      · exact Or.inr (by simp)

theorem lastWrite_mem {b : Bits} {ops : List (Nat × Nat)} {y c d s : Nat} {p : Nat × Nat}
    (h : lastWrite b ops y c d s = some p) :
    p ∈ ops ∧ parse_uid b (p.1 % 2 ^ 64) = (⟨s, c, d, y⟩ : Parsed) := by
  simp only [lastWrite] at h
  obtain ⟨ys, hys⟩ := List.getLast?_eq_some_iff.mp h
  have hmem : p ∈ ops.filter
      (fun p => decide (parse_uid b (p.1 % 2 ^ 64) = (⟨s, c, d, y⟩ : Parsed))) := by
    rw [hys]
    simp
  have := List.mem_filter.mp hmem
  exact ⟨this.1, of_decide_eq_true this.2⟩

theorem lastWrite_eq_filter_uid {b : Bits} (ops : List (Nat × Nat)) {u : Nat}
    (hu : u < 2 ^ 64) :
    lastWrite b ops (parse_uid b u).year (parse_uid b u).child (parse_uid b u).day
        (parse_uid b u).ssn
      = (ops.filter (fun p => p.1 % 2 ^ 64 = u)).getLast? := by
  simp only [lastWrite]
  congr 1
  apply List.filter_congr
  intro p _
  apply decide_eq_decide.mpr
  constructor
  · intro hh
    have hpe : parse_uid b (p.1 % 2 ^ 64) = parse_uid b u := by rw [hh]
    exact parse_uid_injOn b (Nat.mod_lt _ (by positivity)) hu hpe
  · intro hh
    rw [hh]

theorem runInserts_GoodMap {m0 m' : UidMap} {ops : List (Nat × Nat)} (hwf : WF m0)
    (hempty : ∀ y c d s, slotAt m0 y c d s = none)
    (hrun : runInserts m0 ops = .ok m') : GoodMap m' := by
  obtain ⟨hb, hw, hs⟩ := runInserts_slotAt hwf hrun
  intro y c d s slot hslot hsent
  rw [hs y c d s, hempty y c d s] at hslot
  cases hlast : lastWrite m0.bits ops y c d s with
  | some p =>
    rw [foldl_stepSlot_of_lastWrite_some hlast none] at hslot
    injection hslot with h1
    obtain ⟨hmem, hpred⟩ := lastWrite_mem hlast
    rw [← h1]
    refine ⟨Nat.mod_lt _ (by positivity), ?_⟩
    rw [hb]
    exact hpred
  | none =>
    rcases foldl_stepSlot_of_lastWrite_none hlast none with h1 | h1 <;> rw [h1] at hslot
    · exact Option.noConfusion hslot
    · injection hslot with h2
      apply absurd _ hsent
      rw [← h2]
      rfl

/-! ### The traversal of `uids()` equals the ordered spec enumeration -/

theorem flatMap_congr' {α β : Type} {l : List α} {f g : α → List β}
    (h : ∀ x ∈ l, f x = g x) : l.flatMap f = l.flatMap g := by
  induction l with
  | nil => rfl
  | cons a t ih =>
    simp only [List.flatMap_cons]
    rw [h a (List.mem_cons_self a t), ih fun x hx => h x (List.mem_cons_of_mem a hx)]

theorem filterMap_congr' {α β : Type} {l : List α} {f g : α → Option β}
    (h : ∀ x ∈ l, f x = g x) : l.filterMap f = l.filterMap g := by
  induction l with
  | nil => rfl
  | cons a t ih =>
    simp only [List.filterMap_cons]
    rw [h a (List.mem_cons_self a t), ih fun x hx => h x (List.mem_cons_of_mem a hx)]

theorem filterMap_const_none {α β : Type} (l : List α) {f : α → Option β}
    (h : ∀ x, f x = none) : l.filterMap f = [] := by
  induction l with
  | nil => rfl
  | cons a t ih => simp [List.filterMap_cons, h a, ih]

theorem flatMap_const_nil {α β : Type} (l : List α) :
    l.flatMap (fun _ => ([] : List β)) = [] := by
  induction l with
  | nil => rfl
  | cons a t ih => simp [List.flatMap_cons, ih]

theorem range_flatMap_getD {α β : Type} (l : List α) (d₀ : α) (f : α → List β) :
    (List.range l.length).flatMap (fun i => f (l.getD i d₀)) = l.flatMap f := by
  induction l with
  | nil => rfl
  | cons a t ih =>
    rw [List.length_cons, List.range_succ_eq_map, List.flatMap_cons, List.flatMap_map]
    simp only [Function.comp, List.getD_cons_zero, List.getD_cons_succ]
    rw [ih, List.flatMap_cons]

theorem prod_filterMap {α β γ : Type} (l1 : List α) (l2 : List β) (f : α × β → Option γ) :
    (l1 ×ˢ l2).filterMap f = l1.flatMap (fun a => l2.filterMap (fun b => f (a, b))) := by
  induction l1 with
  | nil => rfl
  | cons a t ih =>
    rw [List.product_cons, List.filterMap_append, List.flatMap_cons, ih,
      List.filterMap_map]
    rfl

theorem arrUids_cons (slot : Slot) (t : SsnArray) :
    arrUids (slot :: t) = if slot.index = sentinel then arrUids t
      else slot.uid :: arrUids t := by
  by_cases hsent : slot.index = sentinel
  · simp [arrUids, List.filter_cons, hsent]
  · simp [arrUids, List.filter_cons, hsent]

theorem arrUids_eq (arr : SsnArray) :
    arrUids arr = (List.range arr.length).filterMap (fun s => emitSlot arr[s]?) := by
  induction arr with
  | nil => rfl
  | cons slot t ih =>
    rw [List.length_cons, List.range_succ_eq_map, List.filterMap_cons, List.filterMap_map,
      arrUids_cons]
    have hcomp : (fun s => emitSlot (slot :: t)[s]?) ∘ Nat.succ
        = fun s => emitSlot t[s]? := by
      funext s
      simp [Function.comp]
    rw [hcomp, ← ih]
    by_cases hsent : slot.index = sentinel
    · simp [emitSlot, hsent]
    · simp [emitSlot, hsent]

theorem dayUids_eq (plen : Nat) (dl : DayTable)
    (hl : ∀ (d : Nat) (arr : SsnArray), dl[d]? = some (some arr) → arr.length = plen) :
    dayUids dl = (List.range dl.length).flatMap
      (fun d => (List.range plen).filterMap (fun s => emitSlot (level3 dl d s))) := by
  have hbase : dayUids dl = dl.flatMap (fun e => match e with
      | none => [] | some arr => arrUids arr) := rfl
  rw [hbase, ← range_flatMap_getD dl none (fun e => match e with
      | none => [] | some arr => arrUids arr)]
  apply flatMap_congr'
  intro d hd
  rw [List.mem_range] at hd
  have h1 : dl[d]? = some dl[d] := List.getElem?_eq_getElem hd
  have h2 : dl.getD d none = dl[d] := by rw [List.getD_eq_getElem?_getD, h1]; rfl
  rw [h2]
  cases hdd : dl[d] with
  | none =>
    have hdn : dl[d]? = some none := by rw [h1, hdd]
    symm
    apply filterMap_const_none
    intro s
    simp [level3, hdn, emitSlot]
  | some arr =>
    dsimp only
    have hda : dl[d]? = some (some arr) := by rw [h1, hdd]
    have harr := hl d arr hda
    rw [arrUids_eq arr, harr]
    apply filterMap_congr'
    intro s _
    simp [level3, hda]

theorem childUids_eq (dlen plen : Nat) (cl : ChildTable)
    (hc : ∀ (c : Nat) (dl : DayTable), cl[c]? = some (some dl) →
      dl.length = dlen ∧ ∀ (d : Nat) (arr : SsnArray),
        dl[d]? = some (some arr) → arr.length = plen) :
    childUids cl = (List.range cl.length).flatMap
      (fun c => (List.range dlen).flatMap
        (fun d => (List.range plen).filterMap (fun s => emitSlot (level2 cl c d s)))) := by
  have hbase : childUids cl = cl.flatMap (fun e => match e with
      | none => [] | some dl => dayUids dl) := rfl
  rw [hbase, ← range_flatMap_getD cl none (fun e => match e with
      | none => [] | some dl => dayUids dl)]
  apply flatMap_congr'
  intro c hcr
  rw [List.mem_range] at hcr
  have h1 : cl[c]? = some cl[c] := List.getElem?_eq_getElem hcr
  have h2 : cl.getD c none = cl[c] := by rw [List.getD_eq_getElem?_getD, h1]; rfl
  rw [h2]
  cases hcc : cl[c] with
  | none =>
    have hcn : cl[c]? = some none := by rw [h1, hcc]
    have hz : ∀ d s, emitSlot (level2 cl c d s) = none := by
      intro d s
      simp [level2, hcn, emitSlot]
    symm
    have h3 : ∀ d, (List.range plen).filterMap (fun s => emitSlot (level2 cl c d s)) = [] :=
      fun d => filterMap_const_none _ (fun s => hz d s)
    rw [flatMap_congr' (fun d _ => h3 d)]
    exact flatMap_const_nil _
  | some dl =>
    dsimp only
    have hcd : cl[c]? = some (some dl) := by rw [h1, hcc]
    obtain ⟨hdlen, hinner⟩ := hc c dl hcd
    rw [dayUids_eq plen dl hinner, hdlen]
    apply flatMap_congr'
    intro d _
    apply filterMap_congr'
    intro s _
    simp [level2, level3, hcd]

theorem uids_eq_specUids {m : UidMap} (hwf : WF m) : uids m = specUids m := by
  obtain ⟨hlen, hwf2⟩ := hwf
  have hspec : specUids m = (List.range (2 ^ m.bits.year_bits)).flatMap (fun y =>
      (List.range (2 ^ m.bits.child_bits)).flatMap (fun c =>
        (List.range (2 ^ m.bits.day_bits)).flatMap (fun d =>
          (List.range (2 ^ m.bits.pop_bits)).filterMap (fun s =>
            emitSlot (slotAt m y c d s))))) := by
    rw [specUids, coordsList, prod_filterMap]
    apply flatMap_congr'
    intro y _
    rw [prod_filterMap]
    apply flatMap_congr'
    intro c _
    rw [prod_filterMap]
    rfl
  rw [hspec]
  have hbase : uids m = m.mapping.flatMap (fun e => match e with
      | none => [] | some cl => childUids cl) := rfl
  rw [hbase, ← range_flatMap_getD m.mapping none (fun e => match e with
      | none => [] | some cl => childUids cl), hlen]
  apply flatMap_congr'
  intro y hy
  rw [List.mem_range, ← hlen] at hy
  have h1 : m.mapping[y]? = some m.mapping[y] := List.getElem?_eq_getElem hy
  have h2 : m.mapping.getD y none = m.mapping[y] := by
    rw [List.getD_eq_getElem?_getD, h1]
    rfl
  rw [h2]
  cases hYE : m.mapping[y] with
  | none =>
    have hyn : m.mapping[y]? = some none := by rw [h1, hYE]
    have hz : ∀ c d s, emitSlot (slotAt m y c d s) = none := by
      intro c d s
      simp [slotAt, hyn, emitSlot]
    symm
    have h3 : ∀ c d, (List.range (2 ^ m.bits.pop_bits)).filterMap
        (fun s => emitSlot (slotAt m y c d s)) = [] :=
      fun c d => filterMap_const_none _ (fun s => hz c d s)
    have h4 : ∀ c, (List.range (2 ^ m.bits.day_bits)).flatMap
        (fun d => (List.range (2 ^ m.bits.pop_bits)).filterMap
          (fun s => emitSlot (slotAt m y c d s))) = [] := by
      intro c
      rw [flatMap_congr' (fun d _ => h3 c d)]
      exact flatMap_const_nil _
    rw [flatMap_congr' (fun c _ => h4 c)]
    exact flatMap_const_nil _
  | some cl =>
    dsimp only
    have hys : m.mapping[y]? = some (some cl) := by rw [h1, hYE]
    obtain ⟨hcllen, hclwf⟩ := hwf2 y cl hys
    rw [childUids_eq (2 ^ m.bits.day_bits) (2 ^ m.bits.pop_bits) cl hclwf, hcllen]
    apply flatMap_congr'
    intro c _
    apply flatMap_congr'
    intro d _
    apply filterMap_congr'
    intro s _
    simp [slotAt, hys]

theorem coordsList_nodup (b : Bits) : (coordsList b).Nodup :=
  List.Nodup.product (List.nodup_range _)
    (List.Nodup.product (List.nodup_range _)
      (List.Nodup.product (List.nodup_range _) (List.nodup_range _)))

theorem emitAt_some_elim {m : UidMap} {y c d s u : Nat}
    (h : emitAt m (y, c, d, s) = some u) :
    ∃ slot, slotAt m y c d s = some slot ∧ slot.index ≠ sentinel ∧ slot.uid = u := by
  simp only [emitAt, emitSlot] at h
  cases hsl : slotAt m y c d s with
  | none =>
    rw [hsl] at h
    exact Option.noConfusion h
  | some slot =>
    rw [hsl] at h
    simp only [Option.some_bind] at h
    split at h
    · exact Option.noConfusion h
    · rename_i hne
      injection h with h1
      exact ⟨slot, rfl, hne, h1⟩

theorem specUids_nodup {m : UidMap} (hg : GoodMap m) : (specUids m).Nodup := by
  refine List.Nodup.filterMap ?_ (coordsList_nodup m.bits)
  rintro ⟨y, c, d, s⟩ ⟨y', c', d', s'⟩ u hu hu'
  rw [Option.mem_def] at hu hu'
  obtain ⟨slot, hslot, hsent, huid⟩ := emitAt_some_elim hu
  obtain ⟨slot', hslot', hsent', huid'⟩ := emitAt_some_elim hu'
  have h1 := hg y c d s slot hslot hsent
  have h2 := hg y' c' d' s' slot' hslot' hsent'
  rw [huid] at h1
  rw [huid'] at h2
  have heq := h1.2.symm.trans h2.2
  injection heq with e1 e2 e3 e4
  subst e1
  subst e2
  subst e3
  subst e4
  rfl

theorem mem_specUids {m : UidMap} {u : Nat} :
    u ∈ specUids m ↔ ∃ y c d s, (y, c, d, s) ∈ coordsList m.bits
      ∧ emitAt m (y, c, d, s) = some u := by
  simp only [specUids, List.mem_filterMap]
  constructor
  · rintro ⟨⟨y, c, d, s⟩, hmem, hemit⟩
    exact ⟨y, c, d, s, hmem, hemit⟩
  · rintro ⟨y, c, d, s, hmem, hemit⟩
    exact ⟨(y, c, d, s), hmem, hemit⟩

theorem mem_coordsList {b : Bits} {y c d s : Nat} :
    (y, c, d, s) ∈ coordsList b ↔
      y < 2 ^ b.year_bits ∧ c < 2 ^ b.child_bits ∧ d < 2 ^ b.day_bits
        ∧ s < 2 ^ b.pop_bits := by
  simp [coordsList, List.mem_product, List.mem_range]

/-! ### Membership in the enumeration after a history of inserts -/

theorem mem_uids_lastIndexOf {a b c d : Nat} {m0 m' : UidMap} {ops : List (Nat × Nat)}
    (hinit : UidMap.init a b c d = .ok m0)
    (hrun : runInserts m0 ops = .ok m') (u : Nat) :
    u ∈ uids m' ↔ ∃ v, lastIndexOf ops u = some v ∧ v ≠ sentinel := by
  have hwf0 := WF_init hinit
  obtain ⟨hb, hw, hs⟩ := runInserts_slotAt hwf0 hrun
  rw [uids_eq_specUids hw, mem_specUids]
  constructor
  · rintro ⟨y, c, dd, s, hmem, hemit⟩
    obtain ⟨slot, hslot, hsent, huid⟩ := emitAt_some_elim hemit
    rw [hs y c dd s, slotAt_init hinit y c dd s] at hslot
    cases hlast : lastWrite m0.bits ops y c dd s with
    | none =>
      rcases foldl_stepSlot_of_lastWrite_none hlast none with h1 | h1 <;> rw [h1] at hslot
      · exact absurd hslot (by simp)
      · exfalso
        apply hsent
        injection hslot with h2
        rw [← h2]
        rfl
    | some p =>
      rw [foldl_stepSlot_of_lastWrite_some hlast none] at hslot
      injection hslot with h1
      obtain ⟨hmemp, hpred⟩ := lastWrite_mem hlast
      refine ⟨p.2 % 2 ^ 64, ?_, ?_⟩
      · have hu : u = p.1 % 2 ^ 64 := by rw [← huid, ← h1]
        have hu64 : u < 2 ^ 64 := by
          rw [hu]
          exact Nat.mod_lt _ (by positivity)
        have hcoords : parse_uid m0.bits u = (⟨s, c, dd, y⟩ : Parsed) := by
          rw [hu]
          exact hpred
        have hy' : y = (parse_uid m0.bits u).year := by rw [hcoords]
        have hc' : c = (parse_uid m0.bits u).child := by rw [hcoords]
        have hd' : dd = (parse_uid m0.bits u).day := by rw [hcoords]
        have hs' : s = (parse_uid m0.bits u).ssn := by rw [hcoords]
        rw [hy', hc', hd', hs'] at hlast
        rw [lastWrite_eq_filter_uid ops hu64] at hlast
        show ((ops.filter (fun p => p.1 % 2 ^ 64 = u)).getLast?).map (fun p => p.2 % 2 ^ 64)
          = some (p.2 % 2 ^ 64)
        rw [hlast]
        rfl
      · intro hveq
        apply hsent
        rw [← h1]
        exact hveq
  · rintro ⟨v, hlio, hv⟩
    simp only [lastIndexOf] at hlio
    cases hgl : (ops.filter (fun p => p.1 % 2 ^ 64 = u)).getLast? with
    | none =>
      rw [hgl] at hlio
      exact absurd hlio (by simp)
    | some p =>
      rw [hgl] at hlio
      have hv2 : p.2 % 2 ^ 64 = v := by simpa using hlio
      obtain ⟨ys, hys⟩ := List.getLast?_eq_some_iff.mp hgl
      have hmemf : p ∈ ops.filter (fun p => decide (p.1 % 2 ^ 64 = u)) := by
        rw [hys]
        simp
      have hmem2 := List.mem_filter.mp hmemf
      have hpu : p.1 % 2 ^ 64 = u := of_decide_eq_true hmem2.2
      have hu64 : u < 2 ^ 64 := by
        rw [← hpu]
        exact Nat.mod_lt _ (by positivity)
      have hlast : lastWrite m0.bits ops (parse_uid m0.bits u).year
          (parse_uid m0.bits u).child (parse_uid m0.bits u).day
          (parse_uid m0.bits u).ssn = some p := by
        rw [lastWrite_eq_filter_uid ops hu64, hgl]
      have hslot : slotAt m' (parse_uid m0.bits u).year (parse_uid m0.bits u).child
          (parse_uid m0.bits u).day (parse_uid m0.bits u).ssn
            = some ⟨p.2 % 2 ^ 64, p.1 % 2 ^ 64⟩ := by
        rw [hs, slotAt_init hinit]
        exact foldl_stepSlot_of_lastWrite_some hlast none
      refine ⟨(parse_uid m0.bits u).year, (parse_uid m0.bits u).child,
        (parse_uid m0.bits u).day, (parse_uid m0.bits u).ssn, ?_, ?_⟩
      · rw [hb, mem_coordsList]
        refine ⟨parse_year_lt _ _, parse_child_lt _ _, parse_day_lt _ _, ?_⟩
        have hssn := runInserts_ssn_lt hwf0 hrun p hmem2.1
        rwa [hpu] at hssn
      · show emitSlot (slotAt m' (parse_uid m0.bits u).year (parse_uid m0.bits u).child
          (parse_uid m0.bits u).day (parse_uid m0.bits u).ssn) = some u
        rw [hslot]
        simp only [emitSlot, Option.some_bind]
        rw [if_neg (by rw [hv2]; exact hv), hpu]

/-! ### Claim C1 -/

/-- Claim C1 (confirmed): immediately after a successful
`add_individual(uid, storageIndex)`, `get_index(uid)` returns that same
`storageIndex` (for 64-bit storage indices, which is what the level-4
`uint64` array can hold). -/
theorem insert_lookup_consistency {m m' : UidMap} {uid idx : Nat}
    (h : add_individual m uid idx = .ok m') (hidx : idx < 2 ^ 64) :
    get_index m' uid = .ok idx := by
  obtain ⟨yE, cE, dE, hY, hC, hD, hlt, hm'⟩ := add_ok_elim h
  have hylen : (parse_uid m.bits (uid % 2 ^ 64)).year < m.mapping.length :=
    (List.getElem?_eq_some_iff.mp hY).1
  have hclen : (parse_uid m.bits (uid % 2 ^ 64)).child
      < (yE.getD (freshChild m.bits)).length :=
    (List.getElem?_eq_some_iff.mp hC).1
  have hdlen : (parse_uid m.bits (uid % 2 ^ 64)).day
      < (cE.getD (freshDay m.bits)).length :=
    (List.getElem?_eq_some_iff.mp hD).1
  subst hm'
  simp only [get_index]
  rw [List.getElem?_set_self hylen]
  dsimp only
  rw [List.getElem?_set_self hclen]
  dsimp only
  rw [List.getElem?_set_self hdlen]
  dsimp only
  rw [List.getElem?_set_self hlt]
  dsimp only
  rw [Nat.mod_eq_of_lt hidx]

theorem insert_lookup_consistency_witness :
    (add_individual smallMap0 0 5 = .ok smallMap1 ∧ 5 < 2 ^ 64) ∧
    get_index smallMap1 0 = .ok 5 :=
  ⟨⟨by decide, by decide⟩, @insert_lookup_consistency smallMap0 smallMap1 0 5 (by decide) (by decide)⟩

/-! ### Claim C3 -/

/-- Claim C3 (corrected): after any sequence of successful inserts on a
freshly constructed map, `uids()` yields exactly those UIDs whose most
recent insert carried a storage index other than the sentinel
`0xFFFFFFFFFFFFFFFF`.  A second insert with the same UID replaces the
first, a different UID can never overwrite it (distinct 64-bit UIDs decode
to distinct coordinates), and the enumeration has no duplicate entries.
The claim as stated is refuted by an insert whose storage index equals the
sentinel: the binding is created but treated as an empty slot. -/
theorem enumeration_completeness_amended {a b c d : Nat} {m0 m' : UidMap}
    {ops : List (Nat × Nat)} (hinit : UidMap.init a b c d = .ok m0)
    (hrun : runInserts m0 ops = .ok m') :
    (∀ u, u ∈ uids m' ↔ ∃ v, lastIndexOf ops u = some v ∧ v ≠ sentinel)
      ∧ (uids m').Nodup := by
  refine ⟨fun u => mem_uids_lastIndexOf hinit hrun u, ?_⟩
  have hwf0 := WF_init hinit
  obtain ⟨hb, hw, hs⟩ := runInserts_slotAt hwf0 hrun
  rw [uids_eq_specUids hw]
  exact specUids_nodup (runInserts_GoodMap hwf0 (slotAt_init hinit) hrun)

theorem enumeration_completeness_amended_witness :
    (0 ∈ uids w3Map ↔
      ∃ v, lastIndexOf [(0, 5), (0, 7), (16, sentinel)] 0 = some v ∧ v ≠ sentinel)
      ∧ (uids w3Map).Nodup :=
  ⟨(@enumeration_completeness_amended 4 8 2 2 smallMap0 w3Map
      [(0, 5), (0, 7), (16, sentinel)] (by decide) (by decide)).1 0,
   (@enumeration_completeness_amended 4 8 2 2 smallMap0 w3Map
      [(0, 5), (0, 7), (16, sentinel)] (by decide) (by decide)).2⟩

/-- Claim C3 counterexample: on `UidMap(4, 8, 2, 2)` the single insert of
uid 0 with storage index `0xFFFFFFFFFFFFFFFF` succeeds and is never
overwritten, yet `uids()` is empty — not the set `{0}` the claim as stated
demands. -/
theorem enumeration_misses_sentinel_insert :
    runInserts smallMap0 [(0, 0xFFFFFFFFFFFFFFFF)] = .ok wSentMap ∧
      uids wSentMap = [] := by decide

/-! ### Claim C4 -/

/-- Claim C4 (corrected): looking up a UID that was never inserted either
raises a Python exception (a None-subscript TypeError or an IndexError,
not a typed NotFound), or — when the serial-number array on the UID's path
was allocated by inserts of other UIDs — returns the raw sentinel
`0xFFFFFFFFFFFFFFFF` to the caller with no error at all.  The sentinel
convention is therefore leaked by `get_index`. -/
theorem lookup_unbound_amended {a b c d : Nat} {m0 m' : UidMap}
    {ops : List (Nat × Nat)} (hinit : UidMap.init a b c d = .ok m0)
    (hrun : runInserts m0 ops = .ok m') (uid : Nat)
    (hnotin : ∀ p ∈ ops, p.1 % 2 ^ 64 ≠ uid % 2 ^ 64) :
    (∃ e, get_index m' uid = .error e) ∨ get_index m' uid = .ok sentinel := by
  have hwf0 := WF_init hinit
  obtain ⟨hb, hw, hs⟩ := runInserts_slotAt hwf0 hrun
  rcases get_index_cases m' uid with ⟨slot, hslot, hok⟩ | ⟨hnone, he⟩
  · right
    rw [hb] at hslot
    rw [hs, slotAt_init hinit] at hslot
    cases hlast : lastWrite m0.bits ops (parse_uid m0.bits (uid % 2 ^ 64)).year
        (parse_uid m0.bits (uid % 2 ^ 64)).child
        (parse_uid m0.bits (uid % 2 ^ 64)).day
        (parse_uid m0.bits (uid % 2 ^ 64)).ssn with
    | some p =>
      obtain ⟨hmemp, hpred⟩ := lastWrite_mem hlast
      have hpe : parse_uid m0.bits (p.1 % 2 ^ 64) = parse_uid m0.bits (uid % 2 ^ 64) :=
        hpred
      have heq := parse_uid_injOn m0.bits (Nat.mod_lt _ (by positivity))
        (Nat.mod_lt _ (by positivity)) hpe
      exact absurd heq (hnotin p hmemp)
    | none =>
      rcases foldl_stepSlot_of_lastWrite_none hlast none with h1 | h1 <;> rw [h1] at hslot
      · exact absurd hslot (by simp)
      · injection hslot with h2
        rw [hok, ← h2]
        rfl
  · exact Or.inl he

theorem lookup_unbound_amended_witness :
    (∃ e, get_index smallMap1 16 = .error e) ∨ get_index smallMap1 16 = .ok sentinel :=
  @lookup_unbound_amended 4 8 2 2 smallMap0 smallMap1 [(0, 5)] (by decide) (by decide) 16
    (by decide)

/-- Claim C4 counterexample: after constructing `UidMap(4, 8, 2, 2)` and
inserting uid 0 with index 5, looking up uid 16 — never inserted — raises
nothing and returns the sentinel `0xFFFFFFFFFFFFFFFF` itself. -/
theorem lookup_returns_sentinel :
    add_individual smallMap0 0 5 = .ok smallMap1 ∧
      get_index smallMap1 16 = .ok 0xFFFFFFFFFFFFFFFF := by decide

/-! ### Claim C7 -/

theorem path_cllen {m : UidMap} (hwf : WF m) {yE : Option ChildTable} {Y : Nat}
    (hY : m.mapping[Y]? = some yE) :
    (yE.getD (freshChild m.bits)).length = 2 ^ m.bits.child_bits := by
  cases yE with
  | none => simp [freshChild]
  | some cl0 => exact (hwf.2 Y cl0 hY).1

theorem path_dllen {m : UidMap} (hwf : WF m) {yE : Option ChildTable}
    {cE : Option DayTable} {Y C : Nat}
    (hY : m.mapping[Y]? = some yE)
    (hC : (yE.getD (freshChild m.bits))[C]? = some cE) :
    (cE.getD (freshDay m.bits)).length = 2 ^ m.bits.day_bits := by
  cases cE with
  | none => simp [freshDay]
  | some dl0 =>
    cases yE with
    | none => exact absurd (freshChild_entries (by simpa using hC)) (by simp)
    | some cl0 => exact ((hwf.2 Y cl0 hY).2 C dl0 (by simpa using hC)).1

/-- Claim C7 (corrected): when a UID decodes to a serial number at or
beyond the array size `2^popBits` (the only coordinate that can be out of
range), insert always raises the out-of-bounds IndexError, and lookup
always raises an exception too — but the lookup error is a None-subscript
TypeError whenever an intermediate level of the path is unallocated, not a
bounds error.  Neither operation silently indexes out of bounds. -/
theorem oob_ssn_raises {m : UidMap} (hwf : WF m) (uid idx : Nat)
    (hs : 2 ^ m.bits.pop_bits ≤ (parse_uid m.bits (uid % 2 ^ 64)).ssn) :
    add_individual m uid idx = .error .indexOutOfBounds ∧
    ∃ e, get_index m uid = .error e := by
  constructor
  · simp only [add_individual]
    set q := parse_uid m.bits (uid % 2 ^ 64) with hq
    have hylt : q.year < m.mapping.length := by
      rw [hwf.1]
      exact parse_year_lt m.bits (uid % 2 ^ 64)
    have hY : m.mapping[q.year]? = some m.mapping[q.year] := List.getElem?_eq_getElem hylt
    have hclt : q.child < ((m.mapping[q.year]).getD (freshChild m.bits)).length := by
      rw [path_cllen hwf hY]
      exact parse_child_lt m.bits (uid % 2 ^ 64)
    have hC : ((m.mapping[q.year]).getD (freshChild m.bits))[q.child]?
        = some ((m.mapping[q.year]).getD (freshChild m.bits))[q.child] :=
      List.getElem?_eq_getElem hclt
    have hdlt : q.day < ((((m.mapping[q.year]).getD (freshChild m.bits))[q.child]).getD
        (freshDay m.bits)).length := by
      rw [path_dllen hwf hY hC]
      exact parse_day_lt m.bits (uid % 2 ^ 64)
    have hD : ((((m.mapping[q.year]).getD (freshChild m.bits))[q.child]).getD
        (freshDay m.bits))[q.day]?
        = some ((((m.mapping[q.year]).getD (freshChild m.bits))[q.child]).getD
          (freshDay m.bits))[q.day] :=
      List.getElem?_eq_getElem hdlt
    have harr := path_arrlen hwf hY hC hD
    rw [hY]
    dsimp only
    rw [hC]
    dsimp only
    rw [hD]
    dsimp only
    rw [if_neg (by rw [harr]; omega)]
  · rcases get_index_cases m uid with ⟨slot, hslot, _⟩ | ⟨_, he⟩
    · have := slotAt_ssn_lt hwf hslot
      omega
    · exact he

theorem oob_ssn_raises_witness :
    (WF smallMap0 ∧ 2 ^ smallMap0.bits.pop_bits
        ≤ (parse_uid smallMap0.bits (64 % 2 ^ 64)).ssn) ∧
    (add_individual smallMap0 64 0 = .error .indexOutOfBounds ∧
      ∃ e, get_index smallMap0 64 = .error e) :=
  ⟨⟨WF_init smallBits_init, by decide⟩,
   @oob_ssn_raises smallMap0 (WF_init smallBits_init) 64 0 (by decide)⟩

/-- Claim C7 counterexample: on a freshly constructed `UidMap(4, 8, 2, 2)`,
looking up uid 64 — whose serial number 4 is out of range for the
4-element serial arrays — raises the None-subscript TypeError (from
`self.mapping[0][0]`, the year-0 entry being unallocated), not an
OutOfRange bounds error as the claim states. -/
theorem lookup_oob_not_bounds_error :
    get_index smallMap0 64 = .error .noneSubscript ∧
      Err.noneSubscript ≠ Err.indexOutOfBounds := by decide

/-! ### Claim C8 -/

/-- Claim C8 (confirmed): on any well-formed table, `uids()` produces
exactly the spec enumeration: coordinates visited in order year ascending,
then child slot, then day, then serial number, skipping every unallocated
level-1/2/3 entry, emitting occupied (non-sentinel) slots only.  Both
sides are pure functions of the table, so the traversal allocates nothing
and leaves the table unchanged. -/
theorem enumeration_order {m : UidMap} (hwf : WF m) : uids m = specUids m :=
  uids_eq_specUids hwf

theorem enumeration_order_witness :
    WF w3Map ∧ uids w3Map = specUids w3Map := by
  have h0 : WF smallMap0 := WF_init smallBits_init
  have h1 : runInserts smallMap0 [(0, 5), (0, 7), (16, sentinel)] = .ok w3Map := by decide
  have hwf : WF w3Map := (runInserts_slotAt h0 h1).2.1
  exact ⟨hwf, enumeration_order hwf⟩

/-! ### Claim C10 -/

/-- Claim C10 (confirmed): ending a history of inserts with
`add_individual(uid, 0xFFFFFFFFFFFFFFFF)` creates a binding that `uids()`
omits and for which `get_index` returns the sentinel value itself, so at
the public interface it is indistinguishable from an absent binding. -/
theorem sentinel_insert_hidden {a b c d : Nat} {m0 m' : UidMap}
    {ops : List (Nat × Nat)} {uid : Nat}
    (hinit : UidMap.init a b c d = .ok m0)
    (hrun : runInserts m0 (ops ++ [(uid, sentinel)]) = .ok m') :
    get_index m' uid = .ok sentinel ∧ uid % 2 ^ 64 ∉ uids m' := by
  have hwf0 := WF_init hinit
  obtain ⟨hb, hw, hs⟩ := runInserts_slotAt hwf0 hrun
  have hsent64 : sentinel % 2 ^ 64 = sentinel := by decide
  have hlast : lastWrite m0.bits (ops ++ [(uid, sentinel)])
      (parse_uid m0.bits (uid % 2 ^ 64)).year
      (parse_uid m0.bits (uid % 2 ^ 64)).child
      (parse_uid m0.bits (uid % 2 ^ 64)).day
      (parse_uid m0.bits (uid % 2 ^ 64)).ssn = some (uid, sentinel) := by
    simp only [lastWrite, List.filter_append]
    have hfil : List.filter (fun p => decide (parse_uid m0.bits (p.1 % 2 ^ 64)
        = (⟨(parse_uid m0.bits (uid % 2 ^ 64)).ssn,
            (parse_uid m0.bits (uid % 2 ^ 64)).child,
            (parse_uid m0.bits (uid % 2 ^ 64)).day,
            (parse_uid m0.bits (uid % 2 ^ 64)).year⟩ : Parsed))) [(uid, sentinel)]
        = [(uid, sentinel)] := by
      rw [List.filter_cons, if_pos (decide_eq_true rfl)]
      rfl
    rw [hfil, List.getLast?_concat]
  have hslot : slotAt m' (parse_uid m0.bits (uid % 2 ^ 64)).year
      (parse_uid m0.bits (uid % 2 ^ 64)).child
      (parse_uid m0.bits (uid % 2 ^ 64)).day
      (parse_uid m0.bits (uid % 2 ^ 64)).ssn
        = some ⟨sentinel, uid % 2 ^ 64⟩ := by
    rw [hs, slotAt_init hinit]
    rw [foldl_stepSlot_of_lastWrite_some hlast none]
    rw [hsent64]
  constructor
  · rcases get_index_cases m' uid with ⟨slot, hslot2, hok⟩ | ⟨hnone, he⟩
    · rw [hb] at hslot2
      have heq := hslot.symm.trans hslot2
      injection heq with h1
      rw [hok, ← h1]
    · rw [hb] at hnone
      exact absurd (hslot.symm.trans hnone) (by simp)
  · intro hmem
    obtain ⟨v, hlio, hv⟩ := (mem_uids_lastIndexOf hinit hrun (uid % 2 ^ 64)).mp hmem
    have hlio2 : lastIndexOf (ops ++ [(uid, sentinel)]) (uid % 2 ^ 64)
        = some (sentinel % 2 ^ 64) := by
      simp only [lastIndexOf, List.filter_append]
      have hfil : List.filter (fun p => decide (p.1 % 2 ^ 64 = uid % 2 ^ 64))
          [(uid, sentinel)] = [(uid, sentinel)] := by
        rw [List.filter_cons, if_pos (decide_eq_true rfl)]
        rfl
      rw [hfil, List.getLast?_concat]
      rfl
    rw [hlio2] at hlio
    injection hlio with hv2
    apply hv
    rw [← hv2, hsent64]

theorem sentinel_insert_hidden_witness :
    get_index wSentMap 0 = .ok sentinel ∧ 0 % 2 ^ 64 ∉ uids wSentMap :=
  @sentinel_insert_hidden 4 8 2 2 smallMap0 wSentMap [] 0 (by decide) (by decide)

/-! ### Claim C5 -/

/-- Claim C5 (corrected): the constructor validates almost nothing.  A zero
capacity fails only because converting `np.log2`'s `-inf` to an integer
raises (not a typed configuration error); `dayBits > timeBits` makes the
`np.uint32` subtraction underflow and the year-table size shift undefined
(modelled as an error); but for any other positive capacities construction
succeeds — even when the field widths sum to more than 64 bits — and
eagerly allocates only the year table, of length `2^yearBits`, with every
entry unallocated. -/
theorem construction_behavior (a b c d : Nat) :
    (a ≠ 0 → b ≠ 0 → c ≠ 0 → d ≠ 0 → clog2 d ≤ clog2 b →
      UidMap.init a b c d = .ok ⟨⟨clog2 a, clog2 b, clog2 c, clog2 d⟩,
        List.replicate (2 ^ (clog2 b - clog2 d)) none⟩) ∧
    ((a = 0 ∨ b = 0 ∨ c = 0 ∨ d = 0) →
      UidMap.init a b c d = .error .conversionOverflow) ∧
    (a ≠ 0 → b ≠ 0 → c ≠ 0 → d ≠ 0 → clog2 b < clog2 d →
      UidMap.init a b c d = .error .undefinedShift) := by
  refine ⟨?_, ?_, ?_⟩
  · intro ha hb hc hd hdt
    simp only [UidMap.init]
    rw [if_neg (by tauto), if_neg (by omega)]
    rfl
  · intro h0
    simp only [UidMap.init]
    rw [if_pos h0]
  · intro ha hb hc hd hdt
    simp only [UidMap.init]
    rw [if_neg (by tauto), if_pos (by omega)]

theorem construction_behavior_witness :
    UidMap.init 4 8 2 2 = .ok ⟨⟨clog2 4, clog2 8, clog2 2, clog2 2⟩,
      List.replicate (2 ^ (clog2 8 - clog2 2)) none⟩ :=
  (construction_behavior 4 8 2 2).1 (by decide) (by decide) (by decide) (by decide)
    (by decide)

/-- Claim C5 counterexample: with capacities `(2^40, 2^20, 2^10, 256)` the
field widths are 40 + 20 + 10 = 70 > 64, yet construction succeeds with no
configuration error, eagerly allocating the 4096-entry year table. -/
theorem construction_no_width_check :
    UidMap.init (2 ^ 40) (2 ^ 20) (2 ^ 10) 256
      = .ok ⟨⟨40, 20, 10, 8⟩, List.replicate 4096 none⟩ ∧
    64 < 40 + 20 + 10 := by
  refine ⟨?_, by decide⟩
  have ha : clog2 (2 ^ 40) = 40 := by decide
  have hb : clog2 (2 ^ 20) = 20 := by decide
  have hc : clog2 (2 ^ 10) = 10 := by decide
  have hd : clog2 256 = 8 := by decide
  simp only [UidMap.init]
  rw [if_neg (by decide)]
  rw [ha, hb, hc, hd]
  rw [if_neg (by decide)]
  rw [show (2 : Nat) ^ (⟨40, 20, 10, 8⟩ : Bits).year_bits = 4096 by decide]

end Tng
